import Mathlib

/-!
Verification development for the `codetag` repository's file-tree traversal
and aggregation pipeline.  The Python sources under `src/codetag/` are
shallowly embedded as executable Lean definitions: file contents are lists of
bytes (`List Nat`, each `< 256`), decoded text is a list of Unicode code
points, and the filesystem is an inductive tree of entries.  The claims about
`build_fs_tree`, `analyze_file_stats`, the content-addressed cache, the LFS
pointer resolver and the key-file heuristics are then stated and settled as
theorems about these definitions.
-/

namespace Codetag

/-! ## SHA-256 (embedding of `hashlib.sha256` as used by the sources)

`language_stats.analyze_file_stats` and `analyzer._cache_key` call
`hashlib.sha256`; we embed the FIPS 180-4 function over byte lists so that
hash values are concrete and computable. -/

def M32 : Nat := 4294967296

def add32 (a b : Nat) : Nat := (a + b) % M32

def rotr32 (n x : Nat) : Nat := ((x >>> n) ||| ((x <<< (32 - n)) % M32)) % M32

def shr32 (n x : Nat) : Nat := x >>> n

def xor3 (a b c : Nat) : Nat := Nat.xor (Nat.xor a b) c

def bigSigma0 (x : Nat) : Nat := xor3 (rotr32 2 x) (rotr32 13 x) (rotr32 22 x)

def bigSigma1 (x : Nat) : Nat := xor3 (rotr32 6 x) (rotr32 11 x) (rotr32 25 x)

def smallSigma0 (x : Nat) : Nat := xor3 (rotr32 7 x) (rotr32 18 x) (shr32 3 x)

def smallSigma1 (x : Nat) : Nat := xor3 (rotr32 17 x) (rotr32 19 x) (shr32 10 x)

def chFn (x y z : Nat) : Nat := Nat.xor (Nat.land x y) (Nat.land (M32 - 1 - x) z)

def majFn (x y z : Nat) : Nat := xor3 (Nat.land x y) (Nat.land x z) (Nat.land y z)

def sha256K : List Nat :=
  [1116352408, 1899447441, 3049323471, 3921009573, 961987163,
   1508970993, 2453635748, 2870763221, 3624381080, 310598401,
   607225278, 1426881987, 1925078388, 2162078206, 2614888103,
   3248222580, 3835390401, 4022224774, 264347078, 604807628,
   770255983, 1249150122, 1555081692, 1996064986, 2554220882,
   2821834349, 2952996808, 3210313671, 3336571891, 3584528711,
   113926993, 338241895, 666307205, 773529912, 1294757372,
   1396182291, 1695183700, 1986661051, 2177026350, 2456956037,
   2730485921, 2820302411, 3259730800, 3345764771, 3516065817,
   3600352804, 4094571909, 275423344, 430227734, 506948616,
   659060556, 883997877, 958139571, 1322822218, 1537002063,
   1747873779, 1955562222, 2024104815, 2227730452, 2361852424,
   2428436474, 2756734187, 3204031479, 3329325298]

def sha256H0 : List Nat :=
  [1779033703, 3144134277, 1013904242, 2773480762,
   1359893119, 2600822924, 528734635, 1541459225]

/-- Big-endian bytes of a 64-bit length field. -/
def be64 (n : Nat) : List Nat :=
  (List.range 8).map (fun i => (n >>> (8 * (7 - i))) % 256)

/-- SHA-256 padding: append `0x80`, zero bytes up to 56 mod 64, then the
bit length as 8 big-endian bytes. -/
def padMessage (msg : List Nat) : List Nat :=
  let zeros := (119 - msg.length % 64) % 64
  msg ++ [0x80] ++ List.replicate zeros 0 ++ be64 (8 * msg.length)

/-- Split a list into chunks of `n` elements; `fuel` bounds the recursion
(structural, so that values reduce inside the kernel). -/
def chunksOfAux (n : Nat) (l : List Nat) : Nat → List (List Nat)
  | 0 => []
  | fuel + 1 =>
      if l.length = 0 then [] else l.take n :: chunksOfAux n (l.drop n) fuel

def chunksOf (n : Nat) (l : List Nat) : List (List Nat) :=
  chunksOfAux n l l.length

/-- Combine four consecutive bytes into big-endian 32-bit words. -/
def bytesToWords : List Nat → List Nat
  | b0 :: b1 :: b2 :: b3 :: rest =>
      (((b0 * 256 + b1) * 256 + b2) * 256 + b3) :: bytesToWords rest
  | _ => []

/-- Extend the 16 message-schedule words to 64. -/
def extendSchedule (w : List Nat) : Nat → List Nat
  | 0 => w
  | n + 1 =>
      let t := w.length
      let next := (smallSigma1 (w.getD (t - 2) 0) + w.getD (t - 7) 0 +
                   smallSigma0 (w.getD (t - 15) 0) + w.getD (t - 16) 0) % M32
      extendSchedule (w ++ [next]) n

/-- One round of the SHA-256 compression function over the 8-word state. -/
def roundStep (st : List Nat) (kw : Nat × Nat) : List Nat :=
  match st with
  | [a, b, c, d, e, f, g, h] =>
      let t1 := (h + bigSigma1 e + chFn e f g + kw.1 + kw.2) % M32
      let t2 := (bigSigma0 a + majFn a b c) % M32
      [(t1 + t2) % M32, a, b, c, add32 d t1, e, f, g]
  | other => other

/-- Process one 64-byte block, updating the 8-word hash state. -/
def processBlock (hs : List Nat) (block : List Nat) : List Nat :=
  let w := extendSchedule (bytesToWords block) 48
  let final := (sha256K.zip w).foldl roundStep hs
  (hs.zip final).map (fun p => add32 p.1 p.2)

/-- The eight 32-bit words of the SHA-256 digest of a byte string. -/
def sha256Words (msg : List Nat) : List Nat :=
  (chunksOf 64 (padMessage msg)).foldl processBlock sha256H0

/-- The 32 digest bytes. -/
def sha256Bytes (msg : List Nat) : List Nat :=
  (sha256Words msg).flatMap (fun w =>
    [(w >>> 24) % 256, (w >>> 16) % 256, (w >>> 8) % 256, w % 256])

def hexChar (n : Nat) : Char :=
  if n < 10 then Char.ofNat (48 + n) else Char.ofNat (87 + n)

/-- Lowercase hex digest string, as returned by `hashlib`'s `hexdigest()`. -/
def sha256Hex (msg : List Nat) : String :=
  String.mk ((sha256Bytes msg).flatMap (fun b => [hexChar (b / 16), hexChar (b % 16)]))

/-- Code points of a Lean string literal (used to transcribe Python string
constants from the sources). -/
def strCodes (s : String) : List Nat := s.data.map Char.toNat

example : sha256Hex (strCodes "abc") =
    "ba7816bf8f01cfea414140de5dae2223b00361a396177a9cb410ff61f20015ad" := by decide

/-! ## Text layer

The Python sources read files with `read_text(encoding="utf-8",
errors="ignore")`: bytes are UTF-8-decoded with invalid sequences dropped,
then universal-newline translation rewrites `\r\n` and `\r` to `\n`.  Decoded
text is a `List Nat` of Unicode code points. -/

/-- Is `c` a UTF-8 continuation byte? -/
def isContByte (c : Nat) : Bool := 0x80 ≤ c && c ≤ 0xbf

/-- Fuel-driven body of `decodeUtf8Ignore`; every step consumes at least one
byte, so fuel equal to the input length suffices. -/
def decodeUtf8IgnoreAux : Nat → List Nat → List Nat
  | 0, _ => []
  | _, [] => []
  | fuel + 1, b :: t0 =>
    if b < 0x80 then b :: decodeUtf8IgnoreAux fuel t0
    else if b < 0xc2 then decodeUtf8IgnoreAux fuel t0
    else if b ≤ 0xdf then
      match t0 with
      | [] => []
      | c1 :: t1 =>
        if isContByte c1 then
          ((b - 0xc0) * 64 + (c1 - 0x80)) :: decodeUtf8IgnoreAux fuel t1
        else decodeUtf8IgnoreAux fuel t0
    else if b ≤ 0xef then
      let lo := if b = 0xe0 then 0xa0 else 0x80
      let hi := if b = 0xed then 0x9f else 0xbf
      match t0 with
      | [] => []
      | c1 :: t1 =>
        if lo ≤ c1 && c1 ≤ hi then
          match t1 with
          | [] => []
          | c2 :: t2 =>
            if isContByte c2 then
              ((b - 0xe0) * 4096 + (c1 - 0x80) * 64 + (c2 - 0x80)) ::
                decodeUtf8IgnoreAux fuel t2
            else decodeUtf8IgnoreAux fuel t1
        else decodeUtf8IgnoreAux fuel t0
    else if b ≤ 0xf4 then
      let lo := if b = 0xf0 then 0x90 else 0x80
      let hi := if b = 0xf4 then 0x8f else 0xbf
      match t0 with
      | [] => []
      | c1 :: t1 =>
        if lo ≤ c1 && c1 ≤ hi then
          match t1 with
          | [] => []
          | c2 :: t2 =>
            if isContByte c2 then
              match t2 with
              | [] => []
              | c3 :: t3 =>
                if isContByte c3 then
                  ((b - 0xf0) * 262144 + (c1 - 0x80) * 4096 + (c2 - 0x80) * 64 +
                    (c3 - 0x80)) :: decodeUtf8IgnoreAux fuel t3
                else decodeUtf8IgnoreAux fuel t2
            else decodeUtf8IgnoreAux fuel t1
        else decodeUtf8IgnoreAux fuel t0
    else decodeUtf8IgnoreAux fuel t0

/-- UTF-8 decoding with `errors="ignore"`: well-formed sequences decode to
their code point, ill-formed subsequences are dropped and decoding resumes at
the first byte that does not continue the current sequence (CPython's
maximal-subpart error ranges).  A truncated sequence at end of input is
likewise dropped. -/
def decodeUtf8Ignore (l : List Nat) : List Nat := decodeUtf8IgnoreAux l.length l

/-- UTF-8 encoding of a list of code points (all decoded points are scalar
values, so the four standard ranges suffice). -/
def encodeUtf8 : List Nat → List Nat
  | [] => []
  | c :: t =>
    (if c < 0x80 then [c]
     else if c < 0x800 then [0xc0 + c / 64, 0x80 + c % 64]
     else if c < 0x10000 then [0xe0 + c / 4096, 0x80 + c / 64 % 64, 0x80 + c % 64]
     else [0xf0 + c / 262144, 0x80 + c / 4096 % 64, 0x80 + c / 64 % 64, 0x80 + c % 64])
    ++ encodeUtf8 t

/-- Fuel-driven body of `univNewlines`; each step consumes at least one code
point, so fuel equal to the input length suffices. -/
def univNewlinesAux : Nat → List Nat → List Nat
  | 0, _ => []
  | _, [] => []
  | fuel + 1, c :: t =>
    if c = 13 then
      match t with
      | 10 :: t' => 10 :: univNewlinesAux fuel t'
      | _ => 10 :: univNewlinesAux fuel t
    else c :: univNewlinesAux fuel t

/-- Universal-newline translation performed by text-mode reads:
`\r\n` and lone `\r` both become `\n`. -/
def univNewlines (l : List Nat) : List Nat := univNewlinesAux l.length l

/-- `path.read_text(encoding="utf-8", errors="ignore")` over raw bytes. -/
def readText (data : List Nat) : List Nat :=
  univNewlines (decodeUtf8Ignore data)

/-- Python `str.isspace` code points (the set used by `str.strip()` and
`str.split()`). -/
def isPySpace (c : Nat) : Bool :=
  (9 ≤ c && c ≤ 13) || (28 ≤ c && c ≤ 32) || c = 0x85 || c = 0xa0 ||
  c = 0x1680 || (0x2000 ≤ c && c ≤ 0x200a) || c = 0x2028 || c = 0x2029 ||
  c = 0x202f || c = 0x205f || c = 0x3000

/-- Line-boundary code points of Python `str.splitlines`. -/
def isLineBreakCp (c : Nat) : Bool :=
  (10 ≤ c && c ≤ 13) || (28 ≤ c && c ≤ 30) || c = 0x85 || c = 0x2028 || c = 0x2029

def pySplitlinesAux (cur : List Nat) : List Nat → List (List Nat)
  | [] => if cur.isEmpty then [] else [cur.reverse]
  | 13 :: 10 :: t => cur.reverse :: pySplitlinesAux [] t
  | c :: t =>
    if isLineBreakCp c then cur.reverse :: pySplitlinesAux [] t
    else pySplitlinesAux (c :: cur) t

/-- Python `str.splitlines()`: split at line boundaries, treating `\r\n` as a
single boundary, with no trailing empty line. -/
def pySplitlines (l : List Nat) : List (List Nat) := pySplitlinesAux [] l

/-- Python `str.lstrip()` (no argument). -/
def pyLstrip (l : List Nat) : List Nat := l.dropWhile isPySpace

/-- Python `str.strip()` (no argument). -/
def pyStrip (l : List Nat) : List Nat :=
  ((pyLstrip l).reverse.dropWhile isPySpace).reverse

/-- Python `str.lower()` restricted to the ASCII range; every table the
sources compare against contains ASCII-only entries. -/
def pyLowerChar (c : Nat) : Nat := if 65 ≤ c && c ≤ 90 then c + 32 else c

def pyLower (l : List Nat) : List Nat := l.map pyLowerChar

/-- Python `str.split()` with no argument: split on whitespace runs and drop
empty fields. -/
def pySplitWsAux (cur : List Nat) : List Nat → List (List Nat)
  | [] => if cur.isEmpty then [] else [cur.reverse]
  | c :: t =>
    if isPySpace c then
      if cur.isEmpty then pySplitWsAux [] t else cur.reverse :: pySplitWsAux [] t
    else pySplitWsAux (c :: cur) t

def pySplitWs (l : List Nat) : List (List Nat) := pySplitWsAux [] l

def isDigitCp (c : Nat) : Bool := 48 ≤ c && c ≤ 57

/-- `int()` on a run of ASCII digits. -/
def digitsToNat (l : List Nat) : Nat := l.foldl (fun a c => a * 10 + (c - 48)) 0

/-- Last path component of a `/`-separated path (`PurePath.name`). -/
def lastComponent (p : List Nat) : List Nat := (p.splitOn 47).getLastD []

/-- `PurePath.suffix`: the extension of the final component, empty when the
last dot is at position 0 or at the very end of the name. -/
def pySuffixOfName (name : List Nat) : List Nat :=
  match name.reverse.indexOf? 46 with
  | none => []
  | some j =>
    let i := name.length - 1 - j
    if 0 < i && i < name.length - 1 then name.drop i else []

def pySuffixOfPath (p : List Nat) : List Nat := pySuffixOfName (lastComponent p)

/-- `parent / name` for root-relative `/`-separated paths (a relative root is
the empty path). -/
def joinPath (pre name : List Nat) : List Nat :=
  if pre.isEmpty then name else pre ++ [47] ++ name

/-- Lexicographic comparison of code-point strings, as Python `<=` on `str`
(and the order used by `sorted`). -/
def lexLe : List Nat → List Nat → Bool
  | [], _ => true
  | _ :: _, [] => false
  | a :: as, b :: bs => if a < b then true else if b < a then false else lexLe as bs

def lexLt : List Nat → List Nat → Bool
  | [], [] => false
  | [], _ :: _ => true
  | _ :: _, [] => false
  | a :: as, b :: bs => if a < b then true else if b < a then false else lexLt as bs

theorem lexLe_total : ∀ a b : List Nat, lexLe a b = true ∨ lexLe b a = true := by
  intro a
  induction a with
  | nil => intro b; left; rfl
  | cons x as ih =>
    intro b
    cases b with
    | nil => right; rfl
    | cons y bs =>
      by_cases hxy : x < y
      · left; simp [lexLe, hxy]
      · by_cases hyx : y < x
        · right; simp [lexLe, hyx, Nat.not_lt.mpr (Nat.le_of_lt hyx)]
        · have hxy' : ¬ y < x := hyx
          rcases ih bs with h | h
          · left; simp [lexLe, hxy, hyx, h]
          · right; simp [lexLe, hxy, hyx, h]

theorem lexLe_trans : ∀ a b c : List Nat,
    lexLe a b = true → lexLe b c = true → lexLe a c = true := by
  intro a
  induction a with
  | nil => intro b c _ _; rfl
  | cons x as ih =>
    intro b c hab hbc
    cases b with
    | nil => simp [lexLe] at hab
    | cons y bs =>
      cases c with
      | nil => simp [lexLe] at hbc
      | cons z cs =>
        simp only [lexLe] at hab hbc ⊢
        split at hab
        · next hxy =>
          split at hbc
          · next hyz => simp [Nat.lt_trans hxy hyz]
          · next hyz =>
            split at hbc
            · exact absurd hbc (by simp)
            · next hzy =>
              have : y = z := Nat.le_antisymm (Nat.le_of_not_lt hzy) (Nat.le_of_not_lt hyz)
              subst this
              simp [hxy]
        · next hxy =>
          split at hab
          · exact absurd hab (by simp)
          · next hyx =>
            have hxyeq : x = y := Nat.le_antisymm (Nat.le_of_not_lt hyx) (Nat.le_of_not_lt hxy)
            subst hxyeq
            split at hbc
            · next hxz => simp [hxz]
            · next hxz =>
              split at hbc
              · exact absurd hbc (by simp)
              · next hzx =>
                have : x = z := Nat.le_antisymm (Nat.le_of_not_lt hzx) (Nat.le_of_not_lt hxz)
                subst this
                simp only [if_neg hxz, if_neg (by omega : ¬ x < x)] at *
                exact ih bs cs hab hbc

/-! ## `language_stats.py`

`FileStats`, the language tables and `analyze_file_stats`.  Files live on an
abstract disk `disk : List Nat → List Nat` mapping a path (code points of its
string form) to its raw bytes; reads are total, so the OSError /
UnicodeDecodeError escape hatch of the source (which returns `None`) has no
counterpart here. -/

structure FileStats where
  language : String
  code : Nat
  blank : Nat
  comment : Nat
  content_hash : String
deriving DecidableEq, Repr

/-- `LANGUAGE_MAP`: filename/extension patterns to language names. -/
def LANGUAGE_MAP : List (List Nat × String) :=
  [(strCodes ".py", "Python"), (strCodes ".js", "JavaScript"),
   (strCodes ".ts", "TypeScript"), (strCodes ".java", "Java"),
   (strCodes ".c", "C"), (strCodes ".cpp", "C++"),
   (strCodes ".h", "C/C++ Header"), (strCodes ".cs", "C#"),
   (strCodes ".go", "Go"), (strCodes ".rs", "Rust"),
   (strCodes ".rb", "Ruby"), (strCodes ".php", "PHP"),
   (strCodes ".html", "HTML"), (strCodes ".css", "CSS"),
   (strCodes ".scss", "SCSS"), (strCodes ".md", "Markdown"),
   (strCodes ".json", "JSON"), (strCodes ".yml", "YAML"),
   (strCodes ".yaml", "YAML"), (strCodes ".sh", "Shell"),
   (strCodes ".bat", "Batch"), (strCodes ".ps1", "PowerShell"),
   (strCodes "Dockerfile", "Dockerfile")]

/-- `COMMENT_MAP`: single-line comment marker per language. -/
def COMMENT_MAP : List (String × List Nat) :=
  [("Python", strCodes "#"), ("JavaScript", strCodes "//"),
   ("TypeScript", strCodes "//"), ("Java", strCodes "//"),
   ("C", strCodes "//"), ("C++", strCodes "//"),
   ("C#", strCodes "//"), ("Go", strCodes "//"),
   ("Rust", strCodes "//"), ("Ruby", strCodes "#"),
   ("Shell", strCodes "#")]

def lookupLang (k : List Nat) : Option String :=
  (LANGUAGE_MAP.find? (fun p => p.1 == k)).map (·.2)

/-- Language resolution: exact filename first, then lower-cased extension. -/
def languageOf (path : List Nat) : Option String :=
  match lookupLang (lastComponent path) with
  | some l => some l
  | none => lookupLang (pyLower (pySuffixOfPath path))

def commentPrefixOf (lang : String) : Option (List Nat) :=
  (COMMENT_MAP.find? (fun p => p.1 == lang)).map (·.2)

/-- One iteration of the counting loop of `analyze_file_stats` over the
`(code, blank, comment)` accumulator. -/
def classifyStep (cp : Option (List Nat)) (acc : Nat × Nat × Nat)
    (raw : List Nat) : Nat × Nat × Nat :=
  let line := pyStrip raw
  if line.isEmpty then (acc.1, acc.2.1 + 1, acc.2.2)
  else
    match cp with
    | some pre =>
      if !pre.isEmpty && pre.isPrefixOf line then (acc.1, acc.2.1, acc.2.2 + 1)
      else (acc.1 + 1, acc.2.1, acc.2.2)
    | none => (acc.1 + 1, acc.2.1, acc.2.2)

/-- The counting loop of `analyze_file_stats`: `(code, blank, comment)`
accumulated over the split lines. -/
def classifyCounts (commentPre : Option (List Nat)) (lines : List (List Nat)) :
    Nat × Nat × Nat :=
  lines.foldl (classifyStep commentPre) (0, 0, 0)

/-- `analyze_file_stats`: resolve the language, read and hash the decoded
content once, and classify each line. -/
def analyzeFileStats (disk : List Nat → List Nat) (path : List Nat) :
    Option FileStats :=
  match languageOf path with
  | none => none
  | some language =>
    let content := readText (disk path)
    let contentHash := sha256Hex (encodeUtf8 content)
    let counts := classifyCounts (commentPrefixOf language) (pySplitlines content)
    some ⟨language, counts.1, counts.2.1, counts.2.2, contentHash⟩

example :
    (analyzeFileStats (fun _ => strCodes "# c\n\nx=1\n") (strCodes "repo/a.py")).map
      (fun s => (s.language, s.code, s.blank, s.comment)) =
    some ("Python", 1, 1, 1) := by decide

example : analyzeFileStats (fun _ => strCodes "x") (strCodes "repo/a.xyz") = none := by
  decide

/-! ### Line-classification lemmas (claim C8) -/

/-- Code-side blank test: the stripped line is empty. -/
def blankTest (raw : List Nat) : Bool := (pyStrip raw).isEmpty

/-- Code-side comment test, as in the `elif` of `analyze_file_stats`. -/
def commentTest (cp : Option (List Nat)) (raw : List Nat) : Bool :=
  !(pyStrip raw).isEmpty &&
    (match cp with
     | some pre => !pre.isEmpty && pre.isPrefixOf (pyStrip raw)
     | none => false)

def codeTest (cp : Option (List Nat)) (raw : List Nat) : Bool :=
  !blankTest raw && !commentTest cp raw

/-- Spec-side blank: the line contains only whitespace. -/
def specIsBlank (raw : List Nat) : Bool := raw.all isPySpace

/-- Spec-side comment: not blank, the language has a marker, and the line
starts with it after trimming leading whitespace. -/
def specIsComment (L : String) (raw : List Nat) : Bool :=
  !specIsBlank raw &&
    (match commentPrefixOf L with
     | some pre => pre.isPrefixOf (pyLstrip raw)
     | none => false)

def specIsCode (L : String) (raw : List Nat) : Bool :=
  !specIsBlank raw && !specIsComment L raw

theorem pyStrip_eq_nil_iff (raw : List Nat) :
    pyStrip raw = [] ↔ raw.all isPySpace = true := by
  unfold pyStrip pyLstrip
  rw [List.reverse_eq_nil_iff, List.dropWhile_eq_nil_iff, List.all_eq_true]
  constructor
  · intro h x hx
    have hsplit := List.takeWhile_append_dropWhile (p := isPySpace) (l := raw)
    rw [← hsplit] at hx
    rcases List.mem_append.mp hx with h1 | h2
    · exact List.mem_takeWhile_imp h1
    · exact h x (List.mem_reverse.mpr h2)
  · intro h x hx
    exact h x ((List.dropWhile_sublist (p := isPySpace) (l := raw)).mem
      (List.mem_reverse.mp hx))

theorem blankTest_eq_spec (raw : List Nat) : blankTest raw = specIsBlank raw := by
  rw [Bool.eq_iff_iff]
  unfold blankTest specIsBlank
  rw [List.isEmpty_iff, pyStrip_eq_nil_iff]

/-- A word with no whitespace characters is a prefix of `a ++ s` for
all-whitespace `s` exactly when it is a prefix of `a`. -/
theorem prefix_append_spaces (s : List Nat) (hs : ∀ c ∈ s, isPySpace c = true) :
    ∀ (a pre : List Nat), (∀ c ∈ pre, isPySpace c = false) →
      (pre <+: a ++ s ↔ pre <+: a) := by
  intro a
  induction a with
  | nil =>
    intro pre hp
    constructor
    · intro h
      cases pre with
      | nil => exact List.nil_prefix
      | cons c cs =>
        exfalso
        have hc : c ∈ s := h.subset (List.mem_cons_self c cs)
        have h1 := hs c hc
        have h2 := hp c (List.mem_cons_self c cs)
        rw [h1] at h2
        exact absurd h2 (by simp)
    · intro h
      exact h.trans (List.nil_prefix)
  | cons x a' ih =>
    intro pre hp
    constructor
    · intro h
      cases pre with
      | nil => exact List.nil_prefix
      | cons c cs =>
        rw [List.cons_append, List.cons_prefix_cons] at h
        rw [List.cons_prefix_cons]
        exact ⟨h.1, (ih cs (fun d hd => hp d (List.mem_cons_of_mem _ hd))).mp h.2⟩
    · intro h
      exact h.trans (List.prefix_append (x :: a') s)

/-- Decomposition of the left-stripped line into the fully stripped line and
a whitespace tail. -/
theorem pyLstrip_eq_pyStrip_append (raw : List Nat) :
    pyLstrip raw =
      pyStrip raw ++ ((pyLstrip raw).reverse.takeWhile isPySpace).reverse ∧
      ∀ c ∈ ((pyLstrip raw).reverse.takeWhile isPySpace).reverse,
        isPySpace c = true := by
  constructor
  · conv_lhs => rw [← List.reverse_reverse (pyLstrip raw),
      ← List.takeWhile_append_dropWhile (p := isPySpace) (l := (pyLstrip raw).reverse)]
    rw [List.reverse_append]
    rfl
  · intro c hc
    exact List.mem_takeWhile_imp (List.mem_reverse.mp hc)

theorem isPrefixOf_pyStrip_eq (pre raw : List Nat)
    (hp : ∀ c ∈ pre, isPySpace c = false) :
    pre.isPrefixOf (pyStrip raw) = pre.isPrefixOf (pyLstrip raw) := by
  rw [Bool.eq_iff_iff, List.isPrefixOf_iff_prefix, List.isPrefixOf_iff_prefix]
  obtain ⟨hdec, hsp⟩ := pyLstrip_eq_pyStrip_append raw
  conv_rhs => rw [hdec]
  exact (prefix_append_spaces _ hsp (pyStrip raw) pre hp).symm

theorem commentPrefix_props (L : String) (pre : List Nat)
    (h : commentPrefixOf L = some pre) :
    pre ≠ [] ∧ ∀ c ∈ pre, isPySpace c = false := by
  unfold commentPrefixOf at h
  cases hf : COMMENT_MAP.find? (fun p => p.1 == L) with
  | none => rw [hf] at h; cases h
  | some x =>
    rw [hf] at h
    have hx : x ∈ COMMENT_MAP := List.mem_of_find?_eq_some hf
    have hall : ∀ y ∈ COMMENT_MAP, y.2 ≠ [] ∧ ∀ c ∈ y.2, isPySpace c = false := by
      decide
    have hpre : pre = x.2 := by
      simpa using h.symm
    exact hpre ▸ hall x hx

theorem commentTest_eq_spec (L : String) (raw : List Nat) :
    commentTest (commentPrefixOf L) raw = specIsComment L raw := by
  unfold commentTest specIsComment
  cases hcp : commentPrefixOf L with
  | none =>
    show (!(pyStrip raw).isEmpty && false) = (!specIsBlank raw && false)
    simp
  | some pre =>
    show (!(pyStrip raw).isEmpty && (!pre.isEmpty && pre.isPrefixOf (pyStrip raw))) =
      (!specIsBlank raw && pre.isPrefixOf (pyLstrip raw))
    obtain ⟨hne, hns⟩ := commentPrefix_props L pre hcp
    have h1 : pre.isEmpty = false := by
      cases pre with
      | nil => exact absurd rfl hne
      | cons c cs => rfl
    rw [h1, isPrefixOf_pyStrip_eq pre raw hns,
      show ((pyStrip raw).isEmpty : Bool) = specIsBlank raw from blankTest_eq_spec raw]
    simp

theorem codeTest_eq_spec (L : String) (raw : List Nat) :
    codeTest (commentPrefixOf L) raw = specIsCode L raw := by
  unfold codeTest specIsCode blankTest
  rw [show ((pyStrip raw).isEmpty : Bool) = specIsBlank raw from blankTest_eq_spec raw,
    commentTest_eq_spec]

/-- One loop step, expressed through the three classification tests. -/
theorem classifyStep_eq (cp : Option (List Nat)) (acc : Nat × Nat × Nat)
    (raw : List Nat) :
    classifyStep cp acc raw =
      if blankTest raw then (acc.1, acc.2.1 + 1, acc.2.2)
      else if commentTest cp raw then (acc.1, acc.2.1, acc.2.2 + 1)
      else (acc.1 + 1, acc.2.1, acc.2.2) := by
  unfold classifyStep blankTest commentTest
  by_cases hb : ((pyStrip raw).isEmpty : Bool) = true
  · simp [hb]
  · have hb' : ((pyStrip raw).isEmpty : Bool) = false := by
      cases h : ((pyStrip raw).isEmpty : Bool) with
      | true => exact absurd h hb
      | false => rfl
    cases cp with
    | none => simp [hb']
    | some pre =>
      by_cases hc : (!pre.isEmpty && pre.isPrefixOf (pyStrip raw)) = true
      · simp [hb', hc]
      · have hc' : (!pre.isEmpty && pre.isPrefixOf (pyStrip raw)) = false := by
          cases h : (!pre.isEmpty && pre.isPrefixOf (pyStrip raw)) with
          | true => exact absurd h hc
          | false => rfl
        simp [hb', hc']

theorem classifyCounts_foldl (cp : Option (List Nat)) (lines : List (List Nat)) :
    ∀ acc : Nat × Nat × Nat,
      lines.foldl (classifyStep cp) acc =
        (acc.1 + (lines.filter (codeTest cp)).length,
         acc.2.1 + (lines.filter blankTest).length,
         acc.2.2 + (lines.filter (commentTest cp)).length) := by
  induction lines with
  | nil => intro acc; simp
  | cons raw rest ih =>
    intro acc
    rw [List.foldl_cons, classifyStep_eq, List.filter_cons, List.filter_cons,
      List.filter_cons]
    by_cases hb : blankTest raw = true
    · have hct : commentTest cp raw = false := by
        unfold commentTest
        unfold blankTest at hb
        rw [hb]
        rfl
      have hcd : codeTest cp raw = false := by
        unfold codeTest
        rw [hb]
        rfl
      rw [if_pos hb, ih]
      simp only [hb, hct, hcd, Bool.false_eq_true, if_true, if_false,
        List.length_cons]
      refine congrArg₂ Prod.mk ?_ (congrArg₂ Prod.mk ?_ ?_) <;> omega
    · have hb' : blankTest raw = false := by
        cases h : blankTest raw with
        | true => exact absurd h hb
        | false => rfl
      by_cases hc : commentTest cp raw = true
      · have hcd : codeTest cp raw = false := by
          unfold codeTest
          rw [hc]
          simp
        rw [if_neg hb, if_pos hc, ih]
        simp only [hb', hc, hcd, Bool.false_eq_true, if_true, if_false,
          List.length_cons]
        refine congrArg₂ Prod.mk ?_ (congrArg₂ Prod.mk ?_ ?_) <;> omega
      · have hc' : commentTest cp raw = false := by
          cases h : commentTest cp raw with
          | true => exact absurd h hc
          | false => rfl
        have hcd : codeTest cp raw = true := by
          unfold codeTest
          rw [hb', hc']
          rfl
        rw [if_neg hb, if_neg hc, ih]
        simp only [hb', hc', hcd, Bool.false_eq_true, if_true, if_false,
          List.length_cons]
        refine congrArg₂ Prod.mk ?_ (congrArg₂ Prod.mk ?_ ?_) <;> omega

theorem classifyCounts_eq (cp : Option (List Nat)) (lines : List (List Nat)) :
    classifyCounts cp lines =
      ((lines.filter (codeTest cp)).length,
       (lines.filter blankTest).length,
       (lines.filter (commentTest cp)).length) := by
  unfold classifyCounts
  have h := classifyCounts_foldl cp lines (0, 0, 0)
  simpa using h

theorem filter_three_way (cp : Option (List Nat)) (lines : List (List Nat)) :
    (lines.filter (codeTest cp)).length + (lines.filter blankTest).length +
      (lines.filter (commentTest cp)).length = lines.length := by
  induction lines with
  | nil => rfl
  | cons raw rest ih =>
    rw [List.filter_cons, List.filter_cons, List.filter_cons, List.length_cons]
    by_cases hb : blankTest raw = true
    · have hct : commentTest cp raw = false := by
        unfold commentTest
        unfold blankTest at hb
        rw [hb]
        rfl
      have hcd : codeTest cp raw = false := by
        unfold codeTest
        rw [hb]
        rfl
      rw [hb, hct, hcd]
      simp only [if_true, Bool.false_eq_true, if_false, List.length_cons]
      omega
    · have hb' : blankTest raw = false := by
        cases h : blankTest raw with
        | true => exact absurd h hb
        | false => rfl
      by_cases hc : commentTest cp raw = true
      · have hcd : codeTest cp raw = false := by
          unfold codeTest
          rw [hc]
          simp
        rw [hb', hc, hcd]
        simp only [if_true, Bool.false_eq_true, if_false, List.length_cons]
        omega
      · have hc' : commentTest cp raw = false := by
          cases h : commentTest cp raw with
          | true => exact absurd h hc
          | false => rfl
        have hcd : codeTest cp raw = true := by
          unfold codeTest
          rw [hb', hc']
          rfl
        rw [hb', hc', hcd]
        simp only [if_true, Bool.false_eq_true, if_false, List.length_cons]
        omega

/-- C8: for a file whose language is recognized, `analyze_file_stats` returns
counts matching the spec's per-line classification, summing to the number of
lines. -/
theorem c8_analyzeFileStats_classification
    (disk : List Nat → List Nat) (path : List Nat) (L : String)
    (hL : languageOf path = some L) :
    ∃ s : FileStats, analyzeFileStats disk path = some s ∧ s.language = L ∧
      s.blank = ((pySplitlines (readText (disk path))).filter specIsBlank).length ∧
      s.comment =
        ((pySplitlines (readText (disk path))).filter (specIsComment L)).length ∧
      s.code =
        ((pySplitlines (readText (disk path))).filter (specIsCode L)).length ∧
      s.code + s.blank + s.comment = (pySplitlines (readText (disk path))).length := by
  have hblank : (pySplitlines (readText (disk path))).filter blankTest =
      (pySplitlines (readText (disk path))).filter specIsBlank :=
    List.filter_congr (fun raw _ => blankTest_eq_spec raw)
  have hcomment :
      (pySplitlines (readText (disk path))).filter (commentTest (commentPrefixOf L)) =
      (pySplitlines (readText (disk path))).filter (specIsComment L) :=
    List.filter_congr (fun raw _ => commentTest_eq_spec L raw)
  have hcode :
      (pySplitlines (readText (disk path))).filter (codeTest (commentPrefixOf L)) =
      (pySplitlines (readText (disk path))).filter (specIsCode L) :=
    List.filter_congr (fun raw _ => codeTest_eq_spec L raw)
  refine ⟨⟨L, (classifyCounts (commentPrefixOf L) (pySplitlines (readText (disk path)))).1,
      (classifyCounts (commentPrefixOf L) (pySplitlines (readText (disk path)))).2.1,
      (classifyCounts (commentPrefixOf L) (pySplitlines (readText (disk path)))).2.2,
      sha256Hex (encodeUtf8 (readText (disk path)))⟩,
    by simp only [analyzeFileStats, hL], rfl, ?_, ?_, ?_, ?_⟩
  · show (classifyCounts (commentPrefixOf L) (pySplitlines (readText (disk path)))).2.1 = _
    rw [classifyCounts_eq]
    dsimp only
    rw [hblank]
  · show (classifyCounts (commentPrefixOf L) (pySplitlines (readText (disk path)))).2.2 = _
    rw [classifyCounts_eq]
    dsimp only
    rw [hcomment]
  · show (classifyCounts (commentPrefixOf L) (pySplitlines (readText (disk path)))).1 = _
    rw [classifyCounts_eq]
    dsimp only
    rw [hcode]
  · show (classifyCounts (commentPrefixOf L) (pySplitlines (readText (disk path)))).1 +
      (classifyCounts (commentPrefixOf L) (pySplitlines (readText (disk path)))).2.1 +
      (classifyCounts (commentPrefixOf L) (pySplitlines (readText (disk path)))).2.2 = _
    rw [classifyCounts_eq]
    dsimp only
    exact filter_three_way (commentPrefixOf L) (pySplitlines (readText (disk path)))

/-- Witness for C8 at a concrete Python file. -/
theorem c8_witness :
    languageOf (strCodes "repo/m.py") = some "Python" ∧
    ∃ s : FileStats,
      analyzeFileStats (fun _ => strCodes "# a\n\nx = 1\n") (strCodes "repo/m.py") =
        some s ∧ s.language = "Python" ∧
      s.blank = ((pySplitlines (readText (strCodes "# a\n\nx = 1\n"))).filter
        specIsBlank).length ∧
      s.comment = ((pySplitlines (readText (strCodes "# a\n\nx = 1\n"))).filter
        (specIsComment "Python")).length ∧
      s.code = ((pySplitlines (readText (strCodes "# a\n\nx = 1\n"))).filter
        (specIsCode "Python")).length ∧
      s.code + s.blank + s.comment =
        (pySplitlines (readText (strCodes "# a\n\nx = 1\n"))).length :=
  ⟨by decide,
   c8_analyzeFileStats_classification (fun _ => strCodes "# a\n\nx = 1\n")
     (strCodes "repo/m.py") "Python" (by decide)⟩

/-! ## `analyzer.py` cache helpers

`_cache_key`, `_stats_from_cache` and `_write_cache` over an abstract
key-value cache.  The `py_metrics` side (from `metrics.py`, outside the core)
is modelled with exact rationals in place of floats; no claim depends on
float arithmetic.  Only the current wrapper format (`file_stats` +
`py_metrics`) is modelled; the legacy flat format is read-compatibility only
and never written. -/

structure PyMetrics where
  function_count : Nat
  total_complexity : ℚ
deriving DecidableEq, Repr

structure CachePayload where
  file_stats : Option FileStats
  py_metrics : Option PyMetrics
deriving DecidableEq, Repr

abbrev Cache := List (String × CachePayload)

def lookupCache (c : Cache) (key : String) : Option CachePayload :=
  (c.find? (fun e => e.1 == key)).map (·.2)

/-- `_cache_key`: SHA-256 hex digest of `f"{file_path}:{content_hash}"`. -/
def cacheKey (path : List Nat) (contentHash : String) : String :=
  sha256Hex (encodeUtf8 (path ++ strCodes ":" ++ strCodes contentHash))

/-- The read-and-unpack step of `_stats_from_cache` once the key is fixed. -/
def statsFromCacheAtKey (cache : Cache) (key : String) :
    Option FileStats × Option PyMetrics :=
  match lookupCache cache key with
  | none => (none, none)
  | some payload => (payload.file_stats, payload.py_metrics)

/-- `_stats_from_cache`: hash the current content, derive the key, and return
the entry stored there (missing entry ⇒ `(None, None)`). -/
def statsFromCacheM (disk : List Nat → List Nat) (path : List Nat)
    (cache : Cache) : Option FileStats × Option PyMetrics :=
  let content := readText (disk path)
  let contentHash := sha256Hex (encodeUtf8 content)
  statsFromCacheAtKey cache (cacheKey path contentHash)

/-- `_write_cache`: skip when there are no stats or no content hash, skip when
the key already exists, else append the payload at the derived key. -/
def writeCacheM (path : List Nat) (stats : Option FileStats)
    (pm : Option PyMetrics) (cache : Cache) : Cache :=
  match stats with
  | none => cache
  | some s =>
    if s.content_hash.isEmpty then cache
    else
      let key := cacheKey path s.content_hash
      if (lookupCache cache key).isSome then cache
      else cache ++ [(key, ⟨some s, pm⟩)]

/-! ### Hash provenance (claim C2) -/

/-- Spec-side definition (`content_hash` as the claim states it): the SHA-256
digest of the file's raw bytes as stored on disk. -/
def specRawContentHash (disk : List Nat → List Nat) (path : List Nat) : String :=
  sha256Hex (disk path)

theorem decodeUtf8IgnoreAux_ascii :
    ∀ (fuel : Nat) (l : List Nat), l.length ≤ fuel → (∀ b ∈ l, b < 128) →
      decodeUtf8IgnoreAux fuel l = l := by
  intro fuel
  induction fuel with
  | zero =>
    intro l hlen _
    cases l with
    | nil => rfl
    | cons b t => exact absurd hlen (by simp)
  | succ fuel ih =>
    intro l hlen hb
    cases l with
    | nil => rfl
    | cons b t =>
      have h1 : b < 128 := hb b (List.mem_cons_self b t)
      show decodeUtf8IgnoreAux (fuel + 1) (b :: t) = b :: t
      unfold decodeUtf8IgnoreAux
      rw [if_pos h1]
      rw [ih t (by simp only [List.length_cons] at hlen; omega)
        (fun c hc => hb c (List.mem_cons_of_mem b hc))]

theorem decodeUtf8Ignore_ascii (l : List Nat) (hb : ∀ b ∈ l, b < 128) :
    decodeUtf8Ignore l = l :=
  decodeUtf8IgnoreAux_ascii l.length l (Nat.le_refl _) hb

theorem univNewlinesAux_no_cr :
    ∀ (fuel : Nat) (l : List Nat), l.length ≤ fuel → 13 ∉ l →
      univNewlinesAux fuel l = l := by
  intro fuel
  induction fuel with
  | zero =>
    intro l hlen _
    cases l with
    | nil => rfl
    | cons c t => exact absurd hlen (by simp)
  | succ fuel ih =>
    intro l hlen h
    cases l with
    | nil => rfl
    | cons c t =>
      have hc : c ≠ 13 := fun e => h (e ▸ List.mem_cons_self c t)
      have ht : 13 ∉ t := fun m => h (List.mem_cons_of_mem c m)
      show univNewlinesAux (fuel + 1) (c :: t) = c :: t
      unfold univNewlinesAux
      rw [if_neg hc, ih t (by simp only [List.length_cons] at hlen; omega) ht]

theorem univNewlines_no_cr (l : List Nat) (h : 13 ∉ l) : univNewlines l = l :=
  univNewlinesAux_no_cr l.length l (Nat.le_refl _) h

theorem encodeUtf8_ascii : ∀ l : List Nat, (∀ b ∈ l, b < 128) →
    encodeUtf8 l = l := by
  intro l
  induction l with
  | nil => intro _; rfl
  | cons c t ih =>
    intro h
    have hc : c < 128 := h c (List.mem_cons_self c t)
    show encodeUtf8 (c :: t) = c :: t
    unfold encodeUtf8
    rw [if_pos hc, ih (fun b hb => h b (List.mem_cons_of_mem c hb))]
    rfl

theorem readText_ascii (l : List Nat) (hb : ∀ b ∈ l, b < 128) (hcr : 13 ∉ l) :
    readText l = l := by
  unfold readText
  rw [decodeUtf8Ignore_ascii l hb, univNewlines_no_cr l hcr]

/-- C2 counterexample: for the on-disk bytes `a\r\nb`, the stored
`content_hash` is not the SHA-256 of the raw bytes (text-mode newline
translation hashes `a\nb` instead). -/
theorem c2_counterexample :
    ((analyzeFileStats (fun _ => [97, 13, 10, 98]) (strCodes "a.py")).map
      (fun s => s.content_hash) ≠
        some (specRawContentHash (fun _ => [97, 13, 10, 98]) (strCodes "a.py"))) ∧
    (analyzeFileStats (fun _ => [97, 13, 10, 98]) (strCodes "a.py")).isSome = true := by
  constructor
  · decide
  · decide

/-- C2 (amended): the stored hash is the SHA-256 of the UTF-8 re-encoding of
the decoded, newline-translated text; for raw bytes that are pure ASCII with
no carriage return this equals the SHA-256 of the raw bytes, both in
`analyze_file_stats` and in the key derivation of `_stats_from_cache`. -/
theorem c2_content_hash_ascii (disk : List Nat → List Nat) (path : List Nat)
    (L : String) (hL : languageOf path = some L)
    (hascii : ∀ b ∈ disk path, b < 128) (hcr : 13 ∉ disk path) :
    ((analyzeFileStats disk path).map (fun s => s.content_hash) =
      some (specRawContentHash disk path)) ∧
    (∀ cache : Cache, statsFromCacheM disk path cache =
      statsFromCacheAtKey cache (cacheKey path (specRawContentHash disk path))) := by
  have hread : readText (disk path) = disk path :=
    readText_ascii (disk path) hascii hcr
  have henc : encodeUtf8 (readText (disk path)) = disk path := by
    rw [hread]
    exact encodeUtf8_ascii (disk path) hascii
  constructor
  · simp only [analyzeFileStats, hL]
    unfold specRawContentHash
    rw [henc]
    rfl
  · intro cache
    unfold statsFromCacheM specRawContentHash
    dsimp only
    rw [henc]

/-- Witness for the amended C2 at a concrete ASCII file. -/
theorem c2_witness :
    (languageOf (strCodes "w.py") = some "Python" ∧
     (∀ b ∈ (fun _ : List Nat => strCodes "x = 1\n") (strCodes "w.py"), b < 128) ∧
     13 ∉ (fun _ : List Nat => strCodes "x = 1\n") (strCodes "w.py")) ∧
    (((analyzeFileStats (fun _ => strCodes "x = 1\n") (strCodes "w.py")).map
        (fun s => s.content_hash) =
      some (specRawContentHash (fun _ => strCodes "x = 1\n") (strCodes "w.py"))) ∧
     (∀ cache : Cache,
        statsFromCacheM (fun _ => strCodes "x = 1\n") (strCodes "w.py") cache =
        statsFromCacheAtKey cache
          (cacheKey (strCodes "w.py")
            (specRawContentHash (fun _ => strCodes "x = 1\n") (strCodes "w.py"))))) :=
  ⟨⟨by decide, by decide, by decide⟩,
   c2_content_hash_ascii (fun _ => strCodes "x = 1\n") (strCodes "w.py") "Python"
     (by decide) (by decide) (by decide)⟩

/-! ## `fnmatch.fnmatch` (POSIX case: no case folding)

Glob matching as used by `is_file_lfs_managed` and the `exclude_patterns`
filter: `*` matches any run, `?` one character, `[seq]`/`[!seq]` character
classes with ranges, an unterminated `[` is a literal. -/

/-- Does `d` belong to the character class `cs` (ranges via `-`)? -/
def classMatch : List Nat → Nat → Bool
  | a :: 45 :: b :: rest, d =>
    if a ≤ d && d ≤ b then true else classMatch rest d
  | c :: rest, d => c = d || classMatch rest d
  | [], _ => false

/-- Scan for the closing `]` of a character class; a `]` in first position is
literal.  Returns the class body and the remaining pattern. -/
def splitClassAux (acc : List Nat) (first : Bool) :
    List Nat → Option (List Nat × List Nat)
  | [] => none
  | c :: t =>
    if c = 93 && !first then some (acc.reverse, t)
    else splitClassAux (c :: acc) false t

/-- Fuel-driven glob matcher (`pat` against `s`); every step shortens
`pat.length + s.length`, so that much fuel suffices. -/
def globMatchAux : Nat → List Nat → List Nat → Bool
  | 0, _, _ => false
  | fuel + 1, pat, s =>
    match pat with
    | [] => s.isEmpty
    | 42 :: p =>
      globMatchAux fuel p s ||
        (match s with
         | [] => false
         | _ :: s' => globMatchAux fuel (42 :: p) s')
    | 63 :: p =>
      (match s with
       | [] => false
       | _ :: s' => globMatchAux fuel p s')
    | 91 :: p =>
      let negp := match p with
        | 33 :: rest => (true, rest)
        | _ => (false, p)
      (match splitClassAux [] true negp.2 with
       | none =>
         (match s with
          | [] => false
          | d :: s' => if d = 91 then globMatchAux fuel p s' else false)
       | some (cls, prest) =>
         (match s with
          | [] => false
          | d :: s' =>
            if classMatch cls d != negp.1 then globMatchAux fuel prest s'
            else false))
    | c :: p =>
      (match s with
       | [] => false
       | d :: s' => if c = d then globMatchAux fuel p s' else false)

/-- `fnmatch.fnmatch(s, pat)` on POSIX (no case normalization). -/
def fnmatchB (s pat : List Nat) : Bool :=
  globMatchAux (pat.length + s.length + 1) pat s

example : fnmatchB (strCodes "model.bin") (strCodes "*.bin") = true := by decide
example : fnmatchB (strCodes "model.bin") (strCodes "*.psd") = false := by decide
example : fnmatchB (strCodes "a/b.bin") (strCodes "*.bin") = true := by decide
example : fnmatchB (strCodes "ab.c") (strCodes "a[a-c].c") = true := by decide
example : fnmatchB (strCodes "ab.c") (strCodes "a[!a-c].c") = false := by decide

/-! ## `lfs.py` -/

/-- `LFS_POINTER_VERSION`: the fixed pointer signature the source checks
with `content.startswith(...)`. -/
def LFS_POINTER_VERSION : List Nat := strCodes "https://git-lfs.github.com/spec/v1"

/-- Python's `in` on strings: does `needle` occur contiguously in `hay`? -/
def isInfixOfB : List Nat → List Nat → Bool
  | needle, [] => needle.isEmpty
  | needle, h :: t => needle.isPrefixOf (h :: t) || isInfixOfB needle t

/-- Pattern extraction from `.gitattributes` text: per stripped line, skip
blanks and `#` comments, and take the first whitespace-separated token of any
line containing `filter=lfs`. -/
def parseGitattributesText (text : List Nat) : List (List Nat) :=
  (text.splitOn 10).foldl
    (fun acc raw =>
      let line := pyStrip raw
      if line.isEmpty then acc
      else if (strCodes "#").isPrefixOf line then acc
      else if isInfixOfB (strCodes "filter=lfs") line then
        acc ++ [(pySplitWs line).headD []]
      else acc)
    []

/-- `is_file_lfs_managed`: does the relative path match any LFS pattern? -/
def isFileLfsManaged (relPath : List Nat) (patterns : List (List Nat)) : Bool :=
  patterns.any (fun pat => fnmatchB relPath pat)

/-- Leftmost match of `re.search(r"^\s*size\s+(\d+)", ..., re.MULTILINE)` at
one anchor position: optional whitespace (which may span lines), the literal
`size`, at least one whitespace, then a maximal digit run. -/
def matchSizeAt (l : List Nat) : Option Nat :=
  let t1 := l.dropWhile isPySpace
  if (strCodes "size").isPrefixOf t1 then
    let t2 := t1.drop 4
    if (t2.takeWhile isPySpace).isEmpty then none
    else
      let t3 := t2.dropWhile isPySpace
      let ds := t3.takeWhile isDigitCp
      if ds.isEmpty then none else some (digitsToNat ds)
  else none

def findSizeAux : List Nat → Option Nat
  | [] => none
  | c :: t =>
    if c = 10 then
      match matchSizeAt t with
      | some n => some n
      | none => findSizeAux t
    else findSizeAux t

/-- `LFS_SIZE_REGEX.search`: try the start of the string, then the position
after each newline, in order. -/
def findSizeField (l : List Nat) : Option Nat :=
  match matchSizeAt l with
  | some n => some n
  | none => findSizeAux l

/-- `check_for_lfs`: `None` above the 500-byte ceiling or without the
signature prefix; otherwise the declared size, if present. -/
def checkForLfs (data : List Nat) : Option Nat :=
  if data.length > 500 then none
  else
    let content := readText data
    if LFS_POINTER_VERSION.isPrefixOf content then findSizeField content
    else none

/-! ## `fs_tree.py`: nodes and `_process_file_node` -/

/-- `FsNode`: a file (with the LFS fields) or a directory (whose dict fields
`is_lfs_pointer=False`, `real_size=None` are constant and elided). -/
inductive FsNode where
  | file (name : List Nat) (size_bytes : Nat) (is_lfs_pointer : Bool)
      (real_size : Option Nat)
  | dir (name : List Nat) (size_bytes : Nat) (children : List FsNode)

/-- `_process_file_node`: skip symlinks, stat the size, and substitute the
declared LFS size when the relative path matches a pattern and the content is
a pointer stub. -/
def processFileNode (disk : List Nat → List Nat)
    (fileName currentAbsDir currentRelDir : List Nat) (symlink : Bool)
    (lfsPatterns : List (List Nat)) : Option FsNode :=
  if symlink then none
  else
    let filePath := joinPath currentAbsDir fileName
    let sizeOnDisk := (disk filePath).length
    let relFilePath := joinPath currentRelDir fileName
    if !lfsPatterns.isEmpty && isFileLfsManaged relFilePath lfsPatterns then
      match checkForLfs (disk filePath) with
      | some realSize => some (.file fileName realSize true (some realSize))
      | none => some (.file fileName sizeOnDisk false none)
    else some (.file fileName sizeOnDisk false none)

/-- C5: LFS substitution happens exactly when the pattern matches, the stub
is within the 500-byte ceiling, the signature leads the content, and a size
field is declared; in every other case the node keeps the on-disk size with
`is_lfs_pointer = False`. -/
theorem c5_lfs_substitution (disk : List Nat → List Nat)
    (name absDir relDir : List Nat) (patterns : List (List Nat)) :
    (∀ n : Nat,
      isFileLfsManaged (joinPath relDir name) patterns = true →
      (disk (joinPath absDir name)).length ≤ 500 →
      LFS_POINTER_VERSION.isPrefixOf (readText (disk (joinPath absDir name))) = true →
      findSizeField (readText (disk (joinPath absDir name))) = some n →
      processFileNode disk name absDir relDir false patterns =
        some (.file name n true (some n))) ∧
    ((isFileLfsManaged (joinPath relDir name) patterns = false ∨
      500 < (disk (joinPath absDir name)).length ∨
      LFS_POINTER_VERSION.isPrefixOf (readText (disk (joinPath absDir name))) = false ∨
      findSizeField (readText (disk (joinPath absDir name))) = none) →
      processFileNode disk name absDir relDir false patterns =
        some (.file name (disk (joinPath absDir name)).length false none)) := by
  constructor
  · intro n hm hsize hsig hfind
    have hne : patterns.isEmpty = false := by
      cases patterns with
      | nil => exact absurd hm (by simp [isFileLfsManaged])
      | cons p ps => rfl
    unfold processFileNode
    rw [if_neg (by simp)]
    dsimp only
    rw [hne, hm]
    have hch : checkForLfs (disk (joinPath absDir name)) = some n := by
      unfold checkForLfs
      rw [if_neg (by omega)]
      dsimp only
      rw [hsig]
      · exact hfind
    simp only [Bool.not_false, Bool.and_true, if_true, hch]
  · intro hcase
    unfold processFileNode
    rw [if_neg (by simp)]
    dsimp only
    rcases hcase with hm | hsize | hsig | hfind
    · rw [hm]
      simp
    · have hch : checkForLfs (disk (joinPath absDir name)) = none := by
        unfold checkForLfs
        rw [if_pos (by omega)]
      by_cases hc : (!patterns.isEmpty &&
          isFileLfsManaged (joinPath relDir name) patterns) = true
      · rw [hc, if_pos rfl, hch]
      · rw [if_neg (by simpa using hc)]
    · have hch : checkForLfs (disk (joinPath absDir name)) = none := by
        unfold checkForLfs
        by_cases hs : (disk (joinPath absDir name)).length > 500
        · rw [if_pos hs]
        · rw [if_neg hs]
          dsimp only
          rw [hsig]
          simp
      by_cases hc : (!patterns.isEmpty &&
          isFileLfsManaged (joinPath relDir name) patterns) = true
      · rw [hc, if_pos rfl, hch]
      · rw [if_neg (by simpa using hc)]
    · have hch : checkForLfs (disk (joinPath absDir name)) = none := by
        unfold checkForLfs
        by_cases hs : (disk (joinPath absDir name)).length > 500
        · rw [if_pos hs]
        · rw [if_neg hs]
          dsimp only
          by_cases hp : LFS_POINTER_VERSION.isPrefixOf
              (readText (disk (joinPath absDir name))) = true
          · rw [hp, if_pos rfl]
            exact hfind
          · rw [if_neg (by simpa using hp)]
      by_cases hc : (!patterns.isEmpty &&
          isFileLfsManaged (joinPath relDir name) patterns) = true
      · rw [hc, if_pos rfl, hch]
      · rw [if_neg (by simpa using hc)]

/-- Witness for C5: a pointer stub declaring `size 123456` under a matching
`*.bin` pattern yields a node with `size_bytes = 123456`. -/
theorem c5_witness :
    (isFileLfsManaged (joinPath [] (strCodes "model.bin")) [strCodes "*.bin"] = true ∧
     ((fun _ : List Nat =>
        strCodes "https://git-lfs.github.com/spec/v1\noid sha256:abc\nsize 123456\n")
          (joinPath (strCodes "repo") (strCodes "model.bin"))).length ≤ 500) ∧
    processFileNode
      (fun _ =>
        strCodes "https://git-lfs.github.com/spec/v1\noid sha256:abc\nsize 123456\n")
      (strCodes "model.bin") (strCodes "repo") [] false [strCodes "*.bin"] =
      some (.file (strCodes "model.bin") 123456 true (some 123456)) :=
  ⟨⟨by decide, by decide⟩,
   (c5_lfs_substitution
      (fun _ =>
        strCodes "https://git-lfs.github.com/spec/v1\noid sha256:abc\nsize 123456\n")
      (strCodes "model.bin") (strCodes "repo") [] [strCodes "*.bin"]).1 123456
     (by decide) (by decide) (by decide) (by decide)⟩

/-! ## `fs_tree.py`: the walk

The filesystem under the repository root is an inductive tree of entries;
`os.walk(topdown=True)` lists symlinks to directories in `dirnames` (without
descending, since `followlinks` defaults to `False`) and symlinks to files in
`filenames`.  The compiled `.gitignore` matcher produced by the external
`gitignore_parser` package is an oracle `ign` on path strings.  Per-directory
entry names are unique on a real filesystem; the model processes duplicates
entry-wise. -/

inductive Entry where
  | file (name : List Nat) (symlink : Bool)
  | dir (name : List Nat) (entries : List Entry) (symlink : Bool)

def entryName : Entry → List Nat
  | .file n _ => n
  | .dir n _ _ => n

def entryIsFile : Entry → Bool
  | .file _ _ => true
  | .dir _ _ _ => false

def DEFAULT_IGNORES : List (List Nat) :=
  [strCodes "node_modules", strCodes ".git", strCodes "__pycache__"]

structure BuildOpts where
  includeHidden : Bool
  excludeDirs : List (List Nat)
  excludePatterns : List (List Nat)

/-- Directory pruning test of the walk (kept = descended into). -/
def dirKeep (o : BuildOpts) (ign : List Nat → Bool) (absDir d : List Nat) : Bool :=
  !(DEFAULT_IGNORES.any (fun x => x == d)) &&
  !(o.excludeDirs.any (fun x => x == d)) &&
  (o.includeHidden || !(strCodes ".").isPrefixOf d) &&
  !(ign (joinPath absDir d))

/-- File filter of the walk (hidden rule, ignore rule, exclude patterns). -/
def fileKeep (o : BuildOpts) (ign : List Nat → Bool) (absDir f : List Nat) : Bool :=
  (o.includeHidden || !(strCodes ".").isPrefixOf f) &&
  !(ign (joinPath absDir f)) &&
  !(!o.excludePatterns.isEmpty && o.excludePatterns.any (fun pat => fnmatchB f pat))

def nodeName : FsNode → List Nat
  | .file n _ _ _ => n
  | .dir n _ _ => n

def isDirNode : FsNode → Bool
  | .dir _ _ _ => true
  | .file _ _ _ _ => false

/-- `sorted(...)` on names: Python's stable ascending sort keyed by the
lexicographic string order. -/
def entryLe (a b : Entry) : Prop := lexLe (entryName a) (entryName b) = true

instance : DecidableRel entryLe :=
  fun a b => inferInstanceAs (Decidable (lexLe (entryName a) (entryName b) = true))

instance : IsTotal Entry entryLe :=
  ⟨fun a b => lexLe_total (entryName a) (entryName b)⟩

instance : IsTrans Entry entryLe :=
  ⟨fun a b c => lexLe_trans (entryName a) (entryName b) (entryName c)⟩

def nodeLe (a b : FsNode) : Prop := lexLe (nodeName a) (nodeName b) = true

instance : DecidableRel nodeLe :=
  fun a b => inferInstanceAs (Decidable (lexLe (nodeName a) (nodeName b) = true))

instance : IsTotal FsNode nodeLe :=
  ⟨fun a b => lexLe_total (nodeName a) (nodeName b)⟩

instance : IsTrans FsNode nodeLe :=
  ⟨fun a b c => lexLe_trans (nodeName a) (nodeName b) (nodeName c)⟩

def sortEntries (l : List Entry) : List Entry := List.insertionSort entryLe l

def sortNodes (l : List FsNode) : List FsNode := List.insertionSort nodeLe l

/-- The file half of one walk iteration: filter the file names, sort them,
and build nodes via `_process_file_node` (symlinks and stat failures yield
`None` and are omitted). -/
def buildFileNodes (disk : List Nat → List Nat) (o : BuildOpts)
    (ign : List Nat → Bool) (lfsP : List (List Nat)) (absDir relDir : List Nat)
    (entries : List Entry) : List FsNode :=
  (sortEntries (entries.filter
      (fun e => entryIsFile e && fileKeep o ign absDir (entryName e)))).filterMap
    (fun e =>
      match e with
      | .file n sym => processFileNode disk n absDir relDir sym lfsP
      | .dir _ _ _ => none)

mutual
/-- The directory half of the walk, recursing into kept, non-symlinked
subdirectories; a symlinked directory keeps an empty children list because
`os.walk` never yields it.  Children of each directory are its sorted
directory nodes followed by its sorted file nodes, as the walk appends
them. -/
def buildEntryDir (disk : List Nat → List Nat) (o : BuildOpts)
    (ign : List Nat → Bool) (lfsP : List (List Nat)) :
    List Nat → List Nat → Entry → List FsNode
  | absDir, relDir, .dir d sub sym =>
    if dirKeep o ign absDir d then
      [FsNode.dir d 0
        (if sym then []
         else
           sortNodes (buildDirNodes disk o ign lfsP
             (joinPath absDir d) (joinPath relDir d) sub) ++
           buildFileNodes disk o ign lfsP
             (joinPath absDir d) (joinPath relDir d) sub)]
    else []
  | _, _, .file _ _ => []

def buildDirNodes (disk : List Nat → List Nat) (o : BuildOpts)
    (ign : List Nat → Bool) (lfsP : List (List Nat)) :
    List Nat → List Nat → List Entry → List FsNode
  | _, _, [] => []
  | absDir, relDir, e :: rest =>
    buildEntryDir disk o ign lfsP absDir relDir e ++
    buildDirNodes disk o ign lfsP absDir relDir rest
end

/-- One directory level of the built forest: sorted directory nodes, then
sorted file nodes. -/
def buildForest (disk : List Nat → List Nat) (o : BuildOpts)
    (ign : List Nat → Bool) (lfsP : List (List Nat)) (absDir relDir : List Nat)
    (entries : List Entry) : List FsNode :=
  sortNodes (buildDirNodes disk o ign lfsP absDir relDir entries) ++
  buildFileNodes disk o ign lfsP absDir relDir entries

mutual
/-- `_propagate_directory_sizes`: returns the node with directory sizes
filled in bottom-up, and its total descendant file size. -/
def propagateNode : FsNode → (FsNode × Nat)
  | FsNode.file name s l r => (FsNode.file name s l r, s)
  | FsNode.dir name _ cs =>
    let csr := propagateForest cs
    (FsNode.dir name csr.2 csr.1, csr.2)

def propagateForest : List FsNode → (List FsNode × Nat)
  | [] => ([], 0)
  | n :: rest =>
    let nr := propagateNode n
    let restr := propagateForest rest
    (nr.1 :: restr.1, nr.2 + restr.2)
end

/-- `parse_gitattributes`: read the root `.gitattributes` if a file of that
name exists (`is_file()` follows symlinks, and the read ignores decode
errors). -/
def parseGitattributesFs (disk : List Nat → List Nat) (rootAbs : List Nat)
    (entries : List Entry) : List (List Nat) :=
  if entries.any (fun e => entryIsFile e && entryName e == strCodes ".gitattributes")
  then parseGitattributesText
    (readText (disk (joinPath rootAbs (strCodes ".gitattributes"))))
  else []

/-- `build_fs_tree` on an existing directory root: walk, then propagate the
directory sizes. -/
def buildFsTree (disk : List Nat → List Nat) (o : BuildOpts)
    (ign : List Nat → Bool) (rootAbs : List Nat) (entries : List Entry) :
    List FsNode :=
  let lfsP := parseGitattributesFs disk rootAbs entries
  (propagateForest (buildForest disk o ign lfsP rootAbs [] entries)).1

mutual
/-- `flatten_fs_tree` without metadata: pre-order file paths (a directory
with falsy - empty - children is skipped). -/
def flattenPathsNode : List Nat → FsNode → List (List Nat)
  | pre, FsNode.file name _ _ _ => [joinPath pre name]
  | pre, FsNode.dir name _ cs =>
    if cs.isEmpty then [] else flattenPaths (joinPath pre name) cs

def flattenPaths : List Nat → List FsNode → List (List Nat)
  | _, [] => []
  | pre, n :: rest => flattenPathsNode pre n ++ flattenPaths pre rest
end

structure FileMeta where
  path : List Nat
  size_bytes : Nat
  is_lfs_pointer : Bool
  real_size : Option Nat
deriving DecidableEq, Repr

mutual
/-- `flatten_fs_tree(..., with_meta=True)`. -/
def flattenMetaNode : List Nat → FsNode → List FileMeta
  | pre, FsNode.file name sz lfs rs => [⟨joinPath pre name, sz, lfs, rs⟩]
  | pre, FsNode.dir name _ cs =>
    if cs.isEmpty then [] else flattenMeta (joinPath pre name) cs

def flattenMeta : List Nat → List FsNode → List FileMeta
  | _, [] => []
  | pre, n :: rest => flattenMetaNode pre n ++ flattenMeta pre rest
end

example :
    (buildFsTree (fun _ => [0, 0, 0]) ⟨false, [], []⟩ (fun _ => false) []
      [.dir (strCodes "b") [.file (strCodes "z") false] false,
       .file (strCodes "a") false]).map nodeName =
    [strCodes "b", strCodes "a"] := by decide

example :
    flattenPaths []
      (buildFsTree (fun _ => [0, 0, 0]) ⟨false, [], []⟩ (fun _ => false) []
        [.dir (strCodes "b") [.file (strCodes "z") false] false,
         .file (strCodes "a") false]) =
    [strCodes "b/z", strCodes "a"] := by decide

/-! ### Ordering of children (claim C1) -/

def childKey (n : FsNode) : Nat × List Nat :=
  (if isDirNode n then 0 else 1, nodeName n)

def keyLeB (a b : Nat × List Nat) : Bool :=
  if a.1 < b.1 then true else if b.1 < a.1 then false else lexLe a.2 b.2

/-- The frozen claim's predicate: adjacent children sorted by `name` alone. -/
def chainNamesLe : List (List Nat) → Bool
  | a :: b :: t => lexLe a b && chainNamesLe (b :: t)
  | _ => true

/-- Amended per-level predicate: children sorted by the key `(kind, name)` -
directory nodes (kind 0) first, file nodes (kind 1) after, each group in
lexicographic name order. -/
def childrenOrdered (cs : List FsNode) : Prop :=
  List.Chain' (fun a b => keyLeB a b = true) (cs.map childKey)

mutual
def nodeOrdered : FsNode → Prop
  | .file _ _ _ _ => True
  | .dir _ _ cs => childrenOrdered cs ∧ forestOrdered cs

def forestOrdered : List FsNode → Prop
  | [] => True
  | n :: rest => nodeOrdered n ∧ forestOrdered rest
end

theorem forestOrdered_iff (ns : List FsNode) :
    forestOrdered ns ↔ ∀ n ∈ ns, nodeOrdered n := by
  induction ns with
  | nil => simp [forestOrdered]
  | cons n rest ih =>
    show nodeOrdered n ∧ forestOrdered rest ↔ _
    rw [ih]
    simp

theorem processFileNode_isFile (disk : List Nat → List Nat)
    (n absDir relDir : List Nat) (sym : Bool) (lfsP : List (List Nat))
    (m : FsNode) (h : processFileNode disk n absDir relDir sym lfsP = some m) :
    isDirNode m = false ∧ nodeName m = n := by
  unfold processFileNode at h
  by_cases hs : sym = true
  · rw [if_pos hs] at h
    cases h
  · rw [if_neg hs] at h
    dsimp only at h
    split at h
    · split at h
      · cases h
        exact ⟨rfl, rfl⟩
      · cases h
        exact ⟨rfl, rfl⟩
    · cases h
      exact ⟨rfl, rfl⟩

theorem buildFileNodes_isFile (disk : List Nat → List Nat) (o : BuildOpts)
    (ign : List Nat → Bool) (lfsP : List (List Nat)) (absDir relDir : List Nat)
    (entries : List Entry) :
    ∀ m ∈ buildFileNodes disk o ign lfsP absDir relDir entries,
      isDirNode m = false := by
  intro m hm
  unfold buildFileNodes at hm
  obtain ⟨e, _, hfe⟩ := List.mem_filterMap.mp hm
  cases e with
  | dir _ _ _ => cases hfe
  | file n sym => exact (processFileNode_isFile disk n absDir relDir sym lfsP m hfe).1

theorem buildFileNodes_sorted (disk : List Nat → List Nat) (o : BuildOpts)
    (ign : List Nat → Bool) (lfsP : List (List Nat)) (absDir relDir : List Nat)
    (entries : List Entry) :
    List.Pairwise nodeLe (buildFileNodes disk o ign lfsP absDir relDir entries) := by
  unfold buildFileNodes
  apply List.Pairwise.filterMap
  · intro a a' hr b hb b' hb'
    have hname : nodeName b = entryName a := by
      cases a with
      | dir _ _ _ => cases hb
      | file n sym =>
        exact (processFileNode_isFile disk n absDir relDir sym lfsP b hb).2
    have hname' : nodeName b' = entryName a' := by
      cases a' with
      | dir _ _ _ => cases hb'
      | file n sym =>
        exact (processFileNode_isFile disk n absDir relDir sym lfsP b' hb').2
    unfold nodeLe
    rw [hname, hname']
    exact hr
  · exact List.sorted_insertionSort entryLe _

theorem childrenOrdered_append (ds fs : List FsNode)
    (hd : ∀ n ∈ ds, isDirNode n = true) (hf : ∀ n ∈ fs, isDirNode n = false)
    (hds : List.Pairwise nodeLe ds) (hfs : List.Pairwise nodeLe fs) :
    childrenOrdered (ds ++ fs) := by
  unfold childrenOrdered
  rw [List.map_append, List.chain'_append]
  refine ⟨?_, ?_, ?_⟩
  · rw [List.chain'_map]
    apply List.Pairwise.chain'
    apply hds.imp_of_mem
    intro a b ha hb hr
    unfold keyLeB childKey
    rw [hd a ha, hd b hb]
    simpa [nodeLe] using hr
  · rw [List.chain'_map]
    apply List.Pairwise.chain'
    apply hfs.imp_of_mem
    intro a b ha hb hr
    unfold keyLeB childKey
    rw [hf a ha, hf b hb]
    simpa [nodeLe] using hr
  · intro x hx y hy
    have hxm : x ∈ ds.map childKey := List.mem_of_mem_getLast? hx
    have hym : y ∈ fs.map childKey := List.mem_of_mem_head? hy
    obtain ⟨a, ha, rfl⟩ := List.mem_map.mp hxm
    obtain ⟨b, hb, rfl⟩ := List.mem_map.mp hym
    unfold keyLeB childKey
    rw [hd a ha, hf b hb]
    simp

section BuildOrdered

variable (disk : List Nat → List Nat) (o : BuildOpts) (ign : List Nat → Bool)
  (lfsP : List (List Nat))

mutual
theorem buildEntryDir_ordered :
    ∀ (absDir relDir : List Nat) (e : Entry),
      ∀ m ∈ buildEntryDir disk o ign lfsP absDir relDir e,
        isDirNode m = true ∧ nodeOrdered m
  | absDir, relDir, .file n sym => by
    intro m hm
    cases hm
  | absDir, relDir, .dir d sub sym => by
    intro m hm
    unfold buildEntryDir at hm
    by_cases hk : dirKeep o ign absDir d = true
    · rw [if_pos hk] at hm
      have hmeq := List.mem_singleton.mp hm
      subst hmeq
      refine ⟨rfl, ?_⟩
      by_cases hsym : sym = true
      · rw [if_pos hsym]
        exact ⟨List.chain'_nil, trivial⟩
      · rw [if_neg hsym]
        show childrenOrdered _ ∧ forestOrdered _
        constructor
        · apply childrenOrdered_append
          · intro n hn
            have hn' : n ∈ buildDirNodes disk o ign lfsP
                (joinPath absDir d) (joinPath relDir d) sub :=
              (List.perm_insertionSort nodeLe _).mem_iff.mp hn
            exact (buildDirNodes_ordered
              (joinPath absDir d) (joinPath relDir d) sub n hn').1
          · exact buildFileNodes_isFile disk o ign lfsP _ _ sub
          · exact List.sorted_insertionSort nodeLe _
          · exact buildFileNodes_sorted disk o ign lfsP _ _ sub
        · rw [forestOrdered_iff]
          intro n hn
          rcases List.mem_append.mp hn with h | h
          · have hn' : n ∈ buildDirNodes disk o ign lfsP
                (joinPath absDir d) (joinPath relDir d) sub :=
              (List.perm_insertionSort nodeLe _).mem_iff.mp h
            exact (buildDirNodes_ordered
              (joinPath absDir d) (joinPath relDir d) sub n hn').2
          · have hnf := buildFileNodes_isFile disk o ign lfsP _ _ sub n h
            cases n with
            | file _ _ _ _ => trivial
            | dir _ _ _ => cases hnf
    · rw [if_neg hk] at hm
      cases hm

theorem buildDirNodes_ordered :
    ∀ (absDir relDir : List Nat) (es : List Entry),
      ∀ m ∈ buildDirNodes disk o ign lfsP absDir relDir es,
        isDirNode m = true ∧ nodeOrdered m
  | _, _, [] => by
    intro m hm
    cases hm
  | absDir, relDir, e :: rest => by
    intro m hm
    unfold buildDirNodes at hm
    rcases List.mem_append.mp hm with h | h
    · exact buildEntryDir_ordered absDir relDir e m h
    · exact buildDirNodes_ordered absDir relDir rest m h
end

theorem buildForest_ordered (absDir relDir : List Nat) (es : List Entry) :
    childrenOrdered (buildForest disk o ign lfsP absDir relDir es) ∧
    forestOrdered (buildForest disk o ign lfsP absDir relDir es) := by
  constructor
  · apply childrenOrdered_append
    · intro n hn
      exact (buildDirNodes_ordered disk o ign lfsP absDir relDir es n
        ((List.perm_insertionSort nodeLe _).mem_iff.mp hn)).1
    · exact buildFileNodes_isFile disk o ign lfsP absDir relDir es
    · exact List.sorted_insertionSort nodeLe _
    · exact buildFileNodes_sorted disk o ign lfsP absDir relDir es
  · rw [forestOrdered_iff]
    intro n hn
    rcases List.mem_append.mp hn with h | h
    · exact (buildDirNodes_ordered disk o ign lfsP absDir relDir es n
        ((List.perm_insertionSort nodeLe _).mem_iff.mp h)).2
    · have hnf := buildFileNodes_isFile disk o ign lfsP absDir relDir es n h
      cases n with
      | file _ _ _ _ => trivial
      | dir _ _ _ => cases hnf

end BuildOrdered

theorem propNode_key (n : FsNode) : childKey (propagateNode n).1 = childKey n := by
  cases n with
  | file _ _ _ _ => rfl
  | dir _ _ _ => rfl

theorem propForest_keys :
    ∀ ns : List FsNode, (propagateForest ns).1.map childKey = ns.map childKey := by
  intro ns
  induction ns with
  | nil => rfl
  | cons n rest ih =>
    show childKey (propagateNode n).1 :: ((propagateForest rest).1.map childKey) = _
    rw [propNode_key, ih]
    rfl

mutual
theorem propNode_ordered :
    ∀ n : FsNode, nodeOrdered n → nodeOrdered (propagateNode n).1
  | .file _ _ _ _ => fun h => h
  | .dir name s cs => fun h => by
    obtain ⟨hco, hfo⟩ := h
    show childrenOrdered (propagateForest cs).1 ∧ forestOrdered (propagateForest cs).1
    constructor
    · unfold childrenOrdered at hco ⊢
      rw [propForest_keys cs]
      exact hco
    · exact propForest_ordered cs hfo

theorem propForest_ordered :
    ∀ ns : List FsNode, forestOrdered ns → forestOrdered (propagateForest ns).1
  | [] => fun _ => trivial
  | n :: rest => fun h => by
    obtain ⟨h1, h2⟩ := h
    show nodeOrdered (propagateNode n).1 ∧ forestOrdered (propagateForest rest).1
    exact ⟨propNode_ordered n h1, propForest_ordered rest h2⟩
end

/-- C1 counterexample: a directory named `b` precedes a file named `a` in the
children of the root, so adjacent children are not sorted by name alone. -/
theorem c1_counterexample :
    (buildFsTree (fun _ => []) ⟨false, [], []⟩ (fun _ => false) []
        [.dir (strCodes "b") [] false, .file (strCodes "a") false]).map nodeName =
      [strCodes "b", strCodes "a"] ∧
    chainNamesLe [strCodes "b", strCodes "a"] = false :=
  ⟨by decide, by decide⟩

/-- C1 (amended): in every tree returned by `build_fs_tree`, each directory
level lists its directory children first and its file children after, each
group sorted lexicographically by name (equivalently, children are sorted by
the key `(kind, name)`). -/
theorem c1_children_ordered (disk : List Nat → List Nat) (o : BuildOpts)
    (ign : List Nat → Bool) (rootAbs : List Nat) (entries : List Entry) :
    childrenOrdered (buildFsTree disk o ign rootAbs entries) ∧
    forestOrdered (buildFsTree disk o ign rootAbs entries) := by
  unfold buildFsTree
  constructor
  · unfold childrenOrdered
    rw [propForest_keys]
    exact (buildForest_ordered _ _ _ _ rootAbs [] entries).1
  · exact propForest_ordered _ (buildForest_ordered _ _ _ _ rootAbs [] entries).2

/-! ### Directory sizes (claim C3) -/

mutual
/-- Spec-side: total size of the file nodes of a subtree. -/
def nodeFileSum : FsNode → Nat
  | .file _ s _ _ => s
  | .dir _ _ cs => forestFileSum cs

def forestFileSum : List FsNode → Nat
  | [] => 0
  | n :: rest => nodeFileSum n + forestFileSum rest
end

mutual
/-- Every directory's `size_bytes` equals the file-size sum of its subtree
(in particular `0` with no descendant files). -/
def nodeSizesOk : FsNode → Prop
  | .file _ _ _ _ => True
  | .dir _ sz cs => sz = forestFileSum cs ∧ forestSizesOk cs

def forestSizesOk : List FsNode → Prop
  | [] => True
  | n :: rest => nodeSizesOk n ∧ forestSizesOk rest
end

mutual
theorem propNode_sizesOk :
    ∀ n : FsNode, nodeSizesOk (propagateNode n).1 ∧
      (propagateNode n).2 = nodeFileSum (propagateNode n).1
  | .file _ _ _ _ => ⟨trivial, rfl⟩
  | .dir name s cs => by
    obtain ⟨h1, h2⟩ := propForest_sizesOk cs
    constructor
    · show (propagateForest cs).2 = forestFileSum (propagateForest cs).1 ∧
        forestSizesOk (propagateForest cs).1
      exact ⟨h2, h1⟩
    · show (propagateForest cs).2 = forestFileSum (propagateForest cs).1
      exact h2

theorem propForest_sizesOk :
    ∀ ns : List FsNode, forestSizesOk (propagateForest ns).1 ∧
      (propagateForest ns).2 = forestFileSum (propagateForest ns).1
  | [] => ⟨trivial, rfl⟩
  | n :: rest => by
    obtain ⟨h1, h2⟩ := propNode_sizesOk n
    obtain ⟨h3, h4⟩ := propForest_sizesOk rest
    constructor
    · show nodeSizesOk (propagateNode n).1 ∧ forestSizesOk (propagateForest rest).1
      exact ⟨h1, h3⟩
    · show (propagateNode n).2 + (propagateForest rest).2 =
        forestFileSum ((propagateNode n).1 :: (propagateForest rest).1)
      show (propagateNode n).2 + (propagateForest rest).2 =
        nodeFileSum (propagateNode n).1 + forestFileSum (propagateForest rest).1
      rw [h2, h4]
end

/-- C3: after `build_fs_tree` (which ends with the size-propagation pass),
every directory node's `size_bytes` is the sum of the `size_bytes` of all
file nodes in its subtree. -/
theorem c3_directory_sizes (disk : List Nat → List Nat) (o : BuildOpts)
    (ign : List Nat → Bool) (rootAbs : List Nat) (entries : List Entry) :
    forestSizesOk (buildFsTree disk o ign rootAbs entries) := by
  unfold buildFsTree
  exact (propForest_sizesOk _).1

/-! ### Symlink handling (claim C6) -/

def isSymlinkFileEntry : Entry → Bool
  | .file _ true => true
  | _ => false

mutual
/-- Scrubbed view of the filesystem: symlinked files removed, the contents
beneath symlinked directories removed (the symlinked directory entry itself
remains). -/
def scrubEntry : Entry → Entry
  | .file n sym => .file n sym
  | .dir n _ true => .dir n [] true
  | .dir n es false => .dir n (scrubEntries es) false

def scrubEntries : List Entry → List Entry
  | [] => []
  | .file _ true :: rest => scrubEntries rest
  | .file n false :: rest => .file n false :: scrubEntries rest
  | .dir n es sym :: rest => scrubEntry (.dir n es sym) :: scrubEntries rest
end

def removeSymF (l : List Entry) : List Entry :=
  l.filter (fun e => !isSymlinkFileEntry e)

theorem filterMap_orderedInsert_none {α β : Type} (f : α → Option β)
    (r : α → α → Prop) [DecidableRel r] (x : α) (hx : f x = none) :
    ∀ L : List α, (List.orderedInsert r x L).filterMap f = L.filterMap f := by
  intro L
  induction L with
  | nil => simp [List.orderedInsert, hx]
  | cons b l ih =>
    unfold List.orderedInsert
    by_cases h : r x b
    · rw [if_pos h, List.filterMap_cons, hx]
    · rw [if_neg h, List.filterMap_cons, List.filterMap_cons, ih]

theorem filter_orderedInsert_neg {α : Type} (p : α → Bool)
    (r : α → α → Prop) [DecidableRel r] (x : α) (hx : p x = false) :
    ∀ L : List α, (List.orderedInsert r x L).filter p = L.filter p := by
  intro L
  induction L with
  | nil => simp [List.orderedInsert, hx]
  | cons b l ih =>
    unfold List.orderedInsert
    by_cases h : r x b
    · rw [if_pos h, List.filter_cons, hx]
      simp
    · rw [if_neg h, List.filter_cons, List.filter_cons, ih]

theorem orderedInsert_eq_cons {α : Type} (r : α → α → Prop) [DecidableRel r]
    (x : α) (M : List α) (h : ∀ y ∈ M, r x y) :
    List.orderedInsert r x M = x :: M := by
  cases M with
  | nil => rfl
  | cons b l =>
    unfold List.orderedInsert
    rw [if_pos (h b (List.mem_cons_self b l))]

theorem filter_orderedInsert_pos {α : Type} (p : α → Bool)
    (r : α → α → Prop) [DecidableRel r] [IsTrans α r] (x : α)
    (hx : p x = true) :
    ∀ L : List α, List.Pairwise r L →
      (List.orderedInsert r x L).filter p = List.orderedInsert r x (L.filter p) := by
  intro L
  induction L with
  | nil => simp [List.orderedInsert, hx]
  | cons b l ih =>
    intro hL
    rcases List.pairwise_cons.mp hL with ⟨hb, hl⟩
    by_cases hr : r x b
    · rw [List.orderedInsert, if_pos hr, List.filter_cons, hx]
      simp only [if_true]
      by_cases hpb : p b = true
      · rw [List.filter_cons, hpb]
        simp only [if_true]
        rw [orderedInsert_eq_cons r x (b :: l.filter p)]
        intro y hy
        rcases List.mem_cons.mp hy with rfl | hy'
        · exact hr
        · exact Trans.trans hr (hb y (List.mem_of_mem_filter hy'))
      · have hpb' : p b = false := by
          cases h : p b with
          | true => exact absurd h hpb
          | false => rfl
        rw [List.filter_cons, hpb']
        simp only [Bool.false_eq_true, if_false]
        rw [orderedInsert_eq_cons r x (l.filter p)]
        intro y hy
        exact Trans.trans hr (hb y (List.mem_of_mem_filter hy))
    · rw [List.orderedInsert, if_neg hr, List.filter_cons]
      by_cases hpb : p b = true
      · rw [hpb]
        simp only [if_true]
        rw [List.filter_cons, hpb]
        simp only [if_true]
        rw [List.orderedInsert, if_neg hr, ih hl]
      · have hpb' : p b = false := by
          cases h : p b with
          | true => exact absurd h hpb
          | false => rfl
        rw [hpb']
        simp only [Bool.false_eq_true, if_false]
        rw [List.filter_cons, hpb']
        simp only [Bool.false_eq_true, if_false]
        exact ih hl

theorem sortEntries_filter (p : Entry → Bool) :
    ∀ xs : List Entry,
      sortEntries (xs.filter p) = (sortEntries xs).filter p := by
  intro xs
  induction xs with
  | nil => rfl
  | cons x xs ih =>
    show sortEntries ((x :: xs).filter p) =
      (List.orderedInsert entryLe x (sortEntries xs)).filter p
    rw [List.filter_cons]
    by_cases hx : p x = true
    · rw [hx]
      simp only [if_true]
      show List.orderedInsert entryLe x (sortEntries (xs.filter p)) = _
      rw [ih, filter_orderedInsert_pos p entryLe x hx (sortEntries xs)
        (List.sorted_insertionSort entryLe xs)]
    · have hx' : p x = false := by
        cases h : p x with
        | true => exact absurd h hx
        | false => rfl
      rw [hx']
      simp only [Bool.false_eq_true, if_false]
      rw [ih, filter_orderedInsert_neg p entryLe x hx']

theorem filterMap_filter_none {α β : Type} (f : α → Option β) (p : α → Bool)
    (h : ∀ a, p a = false → f a = none) :
    ∀ M : List α, (M.filter p).filterMap f = M.filterMap f := by
  intro M
  induction M with
  | nil => rfl
  | cons a l ih =>
    rw [List.filter_cons]
    by_cases hp : p a = true
    · rw [hp]
      simp only [if_true]
      rw [List.filterMap_cons, List.filterMap_cons, ih]
    · have hp' : p a = false := by
        cases hh : p a with
        | true => exact absurd hh hp
        | false => rfl
      rw [hp']
      simp only [Bool.false_eq_true, if_false]
      rw [List.filterMap_cons, h a hp', ih]

theorem scrub_filter_files (o : BuildOpts) (ign : List Nat → Bool)
    (absDir : List Nat) :
    ∀ es : List Entry,
      (scrubEntries es).filter
          (fun e => entryIsFile e && fileKeep o ign absDir (entryName e)) =
        removeSymF (es.filter
          (fun e => entryIsFile e && fileKeep o ign absDir (entryName e))) := by
  intro es
  induction es with
  | nil => rfl
  | cons e rest ih =>
    cases e with
    | file n sym =>
      cases sym with
      | true =>
        show (scrubEntries rest).filter _ = _
        rw [ih]
        unfold removeSymF
        rw [List.filter_cons]
        by_cases hk : (entryIsFile (Entry.file n true) &&
            fileKeep o ign absDir (entryName (Entry.file n true))) = true
        · rw [hk]
          simp only [if_true]
          rw [List.filter_cons]
          rfl
        · have hk' := Bool.of_not_eq_true hk
          rw [hk']
          simp
      | false =>
        show (Entry.file n false :: scrubEntries rest).filter _ = _
        rw [List.filter_cons, List.filter_cons]
        by_cases hk : (entryIsFile (Entry.file n false) &&
            fileKeep o ign absDir (entryName (Entry.file n false))) = true
        · rw [hk]
          simp only [if_true]
          unfold removeSymF
          rw [List.filter_cons]
          show Entry.file n false :: (scrubEntries rest).filter _ = _
          rw [ih]
          rfl
        · have hk' := Bool.of_not_eq_true hk
          rw [hk']
          simp only [Bool.false_eq_true, if_false]
          exact ih
    | dir n sub sym =>
      show (scrubEntry (Entry.dir n sub sym) :: scrubEntries rest).filter _ = _
      rw [List.filter_cons, List.filter_cons]
      have h1 : ∀ es' sym', entryIsFile (scrubEntry (Entry.dir n es' sym')) = false := by
        intro es' sym'
        cases sym' <;> rfl
      rw [h1]
      simp only [Bool.false_and, Bool.false_eq_true, if_false]
      show (scrubEntries rest).filter _ = _
      rw [ih]
      rfl

theorem buildFileNodes_scrub (disk : List Nat → List Nat) (o : BuildOpts)
    (ign : List Nat → Bool) (lfsP : List (List Nat)) (absDir relDir : List Nat)
    (es : List Entry) :
    buildFileNodes disk o ign lfsP absDir relDir (scrubEntries es) =
      buildFileNodes disk o ign lfsP absDir relDir es := by
  unfold buildFileNodes
  rw [scrub_filter_files]
  unfold removeSymF
  rw [show sortEntries ((es.filter
      (fun e => entryIsFile e && fileKeep o ign absDir (entryName e))).filter
        (fun e => !isSymlinkFileEntry e)) =
    (sortEntries (es.filter
      (fun e => entryIsFile e && fileKeep o ign absDir (entryName e)))).filter
        (fun e => !isSymlinkFileEntry e) from
    sortEntries_filter (fun e => !isSymlinkFileEntry e) _]
  apply filterMap_filter_none
  intro e he
  cases e with
  | dir _ _ _ => simp [isSymlinkFileEntry] at he
  | file n sym =>
    cases sym with
    | false => simp [isSymlinkFileEntry] at he
    | true =>
      show processFileNode disk n absDir relDir true lfsP = none
      unfold processFileNode
      rw [if_pos rfl]

section BuildScrub

variable (disk : List Nat → List Nat) (o : BuildOpts) (ign : List Nat → Bool)
  (lfsP : List (List Nat))

mutual
theorem buildEntryDir_scrub :
    ∀ (absDir relDir : List Nat) (e : Entry),
      buildEntryDir disk o ign lfsP absDir relDir (scrubEntry e) =
        buildEntryDir disk o ign lfsP absDir relDir e
  | _, _, .file n sym => rfl
  | absDir, relDir, .dir d sub true => rfl
  | absDir, relDir, .dir d sub false => by
    show buildEntryDir disk o ign lfsP absDir relDir
        (Entry.dir d (scrubEntries sub) false) = _
    unfold buildEntryDir
    rw [buildDirNodes_scrub (joinPath absDir d) (joinPath relDir d) sub,
      buildFileNodes_scrub disk o ign lfsP (joinPath absDir d) (joinPath relDir d) sub]

theorem buildDirNodes_scrub :
    ∀ (absDir relDir : List Nat) (es : List Entry),
      buildDirNodes disk o ign lfsP absDir relDir (scrubEntries es) =
        buildDirNodes disk o ign lfsP absDir relDir es
  | _, _, [] => rfl
  | absDir, relDir, .file n true :: rest => by
    show buildDirNodes disk o ign lfsP absDir relDir (scrubEntries rest) = _
    rw [buildDirNodes_scrub absDir relDir rest]
    rfl
  | absDir, relDir, .file n false :: rest => by
    show buildDirNodes disk o ign lfsP absDir relDir
        (Entry.file n false :: scrubEntries rest) = _
    unfold buildDirNodes
    rw [buildDirNodes_scrub absDir relDir rest]
  | absDir, relDir, .dir d sub sym :: rest => by
    show buildDirNodes disk o ign lfsP absDir relDir
        (scrubEntry (Entry.dir d sub sym) :: scrubEntries rest) = _
    unfold buildDirNodes
    rw [buildDirNodes_scrub absDir relDir rest,
      buildEntryDir_scrub absDir relDir (Entry.dir d sub sym)]
end

end BuildScrub

/-- C6 counterexample: a symlink to a directory is represented in the tree as
an (empty) directory node, against the claim that no node corresponds to any
symlinked entry. -/
theorem c6_counterexample :
    buildFsTree (fun _ => []) ⟨false, [], []⟩ (fun _ => false) []
        [.dir (strCodes "s") [.file (strCodes "x") false] true] =
      [FsNode.dir (strCodes "s") 0 []] := by rfl

/-- C6 (amended): symlinked files are never represented and symlinks are
never followed - the tree equals the tree of the scrubbed filesystem in
which symlinked files are removed and the contents beneath symlinked
directories are dropped; a symlinked directory itself remains as an empty
directory node.  (The `.gitattributes` hypothesis excludes the corner case of
the root `.gitattributes` itself being a symlink, which `is_file()`
follows.) -/
theorem c6_symlinks_scrubbed (disk : List Nat → List Nat) (o : BuildOpts)
    (ign : List Nat → Bool) (rootAbs : List Nat) (entries : List Entry)
    (hattr : parseGitattributesFs disk rootAbs (scrubEntries entries) =
      parseGitattributesFs disk rootAbs entries) :
    buildFsTree disk o ign rootAbs (scrubEntries entries) =
      buildFsTree disk o ign rootAbs entries ∧
    (∀ (n absDir relDir : List Nat) (lfsP : List (List Nat)),
      processFileNode disk n absDir relDir true lfsP = none) := by
  constructor
  · unfold buildFsTree
    rw [hattr]
    unfold buildForest
    dsimp only
    rw [buildDirNodes_scrub, buildFileNodes_scrub]
  · intro n absDir relDir lfsP
    unfold processFileNode
    rw [if_pos rfl]

/-- Witness for the amended C6 on a filesystem holding a symlinked file, a
symlinked directory with contents, and a regular file. -/
theorem c6_witness :
    (parseGitattributesFs (fun _ => []) []
        (scrubEntries
          [.file (strCodes "ln") true,
           .dir (strCodes "s") [.file (strCodes "x") false] true,
           .file (strCodes "a") false]) =
      parseGitattributesFs (fun _ => [])
        [] [.file (strCodes "ln") true,
            .dir (strCodes "s") [.file (strCodes "x") false] true,
            .file (strCodes "a") false]) ∧
    (buildFsTree (fun _ => []) ⟨false, [], []⟩ (fun _ => false) []
        (scrubEntries
          [.file (strCodes "ln") true,
           .dir (strCodes "s") [.file (strCodes "x") false] true,
           .file (strCodes "a") false]) =
      buildFsTree (fun _ => []) ⟨false, [], []⟩ (fun _ => false) []
        [.file (strCodes "ln") true,
         .dir (strCodes "s") [.file (strCodes "x") false] true,
         .file (strCodes "a") false] ∧
     (∀ (n absDir relDir : List Nat) (lfsP : List (List Nat)),
       processFileNode (fun _ => []) n absDir relDir true lfsP = none)) :=
  ⟨by decide,
   c6_symlinks_scrubbed (fun _ => []) ⟨false, [], []⟩ (fun _ => false) []
     [.file (strCodes "ln") true,
      .dir (strCodes "s") [.file (strCodes "x") false] true,
      .file (strCodes "a") false] (by decide)⟩

/-! ## `analyzer.py`: `_run_loc_and_metrics_analysis` and `run_analysis`

The per-file loop threads the on-disk cache; `analyze_python_file_metrics`
(from `metrics.py`, outside the modelled core) is an oracle
`pyMetrics : path → Option PyMetrics`.  Report fields produced by the other
pluggable analyzers (todos, secrets, dependencies, key files, complexity
ranking) and the float `average_cyclomatic_complexity` are outside this
summary. -/

/-- `lang_loc[k] = lang_loc.get(k, 0) + v` on an insertion-ordered dict. -/
def updAssoc : List (String × Nat) → String → Nat → List (String × Nat)
  | [], k, v => [(k, v)]
  | (k', v') :: rest, k, v =>
    if k' = k then (k', v' + v) :: rest else (k', v') :: updAssoc rest k v

structure LocState where
  lang_loc : List (String × Nat)
  total_function_count : Nat
  total_complexity_sum : ℚ
  cache : Cache

/-- One iteration of the loop body of `_run_loc_and_metrics_analysis`. -/
def runLocStep (disk : List Nat → List Nat) (useCache : Bool)
    (pyMetrics : List Nat → Option PyMetrics) (st : LocState) (f : List Nat) :
    LocState :=
  let cached := if useCache then statsFromCacheM disk f st.cache else (none, none)
  let stats := match cached.1 with
    | some s => some s
    | none => analyzeFileStats disk f
  let pm := match cached.2 with
    | some m => some m
    | none => pyMetrics f
  let lang' := match stats with
    | some s => updAssoc st.lang_loc s.language s.code
    | none => st.lang_loc
  let tf' := st.total_function_count +
    (match pm with | some m => m.function_count | none => 0)
  let tc' := st.total_complexity_sum +
    (match pm with | some m => m.total_complexity | none => 0)
  let cache' := if useCache && (cached.1.isNone || cached.2.isNone) then
    writeCacheM f stats pm st.cache else st.cache
  ⟨lang', tf', tc', cache'⟩

def runLocAndMetrics (disk : List Nat → List Nat) (useCache : Bool)
    (pyMetrics : List Nat → Option PyMetrics) (files : List (List Nat))
    (cache0 : Cache) : LocState :=
  files.foldl (runLocStep disk useCache pyMetrics) ⟨[], 0, 0, cache0⟩

/-- Python `max(..., key=...)`: keep the current best, replace only on a
strictly greater key, so the first maximum wins. -/
def pyMaxAux : String → Nat → List (String × Nat) → String
  | best, _, [] => best
  | best, bv, (k, v) :: rest =>
    if v > bv then pyMaxAux k v rest else pyMaxAux best bv rest

/-- `max(lang_loc, key=...) if lang_loc else None`. -/
def primaryLanguage : List (String × Nat) → Option String
  | [] => none
  | (k, v) :: rest => some (pyMaxAux k v rest)

structure RepositorySummary where
  total_files : Nat
  language_stats : List (String × Nat)
  total_lines_of_code : Nat
  primary_language : Option String
  total_functions_found : Nat
deriving DecidableEq, Repr

/-- `run_analysis` (modelled core): build the tree, flatten, enforce the
file-count ceiling, run the LOC/metrics loop, and assemble the repository
summary.  The failure branch models the `ValueError` raised when the file
count exceeds `max_files`; the missing-root and not-a-directory failures of
`build_fs_tree` precede this model's inputs (the root's entry list exists by
construction). -/
def runAnalysis (disk : List Nat → List Nat) (o : BuildOpts)
    (ign : List Nat → Bool) (rootAbs : List Nat) (entries : List Entry)
    (maxFiles : Nat) (useCache : Bool)
    (pyMetrics : List Nat → Option PyMetrics) (cache0 : Cache) :
    Except String (RepositorySummary × Cache) :=
  let tree := buildFsTree disk o ign rootAbs entries
  let allFiles := flattenPaths rootAbs tree
  if allFiles.length > maxFiles then
    Except.error "file count exceeds limit"
  else
    let st := runLocAndMetrics disk useCache pyMetrics allFiles cache0
    Except.ok
      (⟨allFiles.length, st.lang_loc, (st.lang_loc.map (fun p => p.2)).sum,
        primaryLanguage st.lang_loc, st.total_function_count⟩, st.cache)

/-! ### The file-count ceiling (claim C9) -/

mutual
def countFilesNode : FsNode → Nat
  | .file _ _ _ _ => 1
  | .dir _ _ cs => countFilesForest cs

def countFilesForest : List FsNode → Nat
  | [] => 0
  | n :: rest => countFilesNode n + countFilesForest rest
end

mutual
theorem flattenPathsNode_length :
    ∀ (pre : List Nat) (n : FsNode),
      (flattenPathsNode pre n).length = countFilesNode n
  | pre, .file name sz lfs rs => rfl
  | pre, .dir name sz cs => by
    show (if cs.isEmpty then [] else flattenPaths (joinPath pre name) cs).length =
      countFilesForest cs
    cases cs with
    | nil => rfl
    | cons c rest =>
      show (flattenPaths (joinPath pre name) (c :: rest)).length = _
      exact flattenPaths_length (joinPath pre name) (c :: rest)

theorem flattenPaths_length :
    ∀ (pre : List Nat) (ns : List FsNode),
      (flattenPaths pre ns).length = countFilesForest ns
  | _, [] => rfl
  | pre, n :: rest => by
    show (flattenPathsNode pre n ++ flattenPaths pre rest).length = _
    rw [List.length_append, flattenPathsNode_length pre n,
      flattenPaths_length pre rest]
    rfl
end

/-- C9: `run_analysis` fails (beyond the missing-root cases, which precede
this model) exactly when the number of file nodes in the built tree strictly
exceeds `max_files`; equality does not trigger the failure. -/
theorem c9_file_ceiling (disk : List Nat → List Nat) (o : BuildOpts)
    (ign : List Nat → Bool) (rootAbs : List Nat) (entries : List Entry)
    (maxFiles : Nat) (useCache : Bool)
    (pyMetrics : List Nat → Option PyMetrics) (cache0 : Cache) :
    ((∃ e, runAnalysis disk o ign rootAbs entries maxFiles useCache pyMetrics
        cache0 = Except.error e) ↔
      countFilesForest (buildFsTree disk o ign rootAbs entries) > maxFiles) ∧
    (countFilesForest (buildFsTree disk o ign rootAbs entries) = maxFiles →
      ∃ s, runAnalysis disk o ign rootAbs entries maxFiles useCache pyMetrics
        cache0 = Except.ok s) := by
  have hlen : (flattenPaths rootAbs (buildFsTree disk o ign rootAbs entries)).length =
      countFilesForest (buildFsTree disk o ign rootAbs entries) :=
    flattenPaths_length rootAbs _
  constructor
  · constructor
    · intro ⟨e, he⟩
      unfold runAnalysis at he
      rw [← hlen]
      by_cases h : (flattenPaths rootAbs
          (buildFsTree disk o ign rootAbs entries)).length > maxFiles
      · exact h
      · rw [if_neg h] at he
        cases he
    · intro h
      refine ⟨"file count exceeds limit", ?_⟩
      unfold runAnalysis
      rw [if_pos (by rw [hlen]; exact h)]
  · intro h
    unfold runAnalysis
    rw [if_neg (by rw [hlen]; omega)]
    exact ⟨_, rfl⟩

/-- Witness for C9 at a one-file repository with `max_files = 1`: the count
equals the ceiling and the run succeeds. -/
theorem c9_witness :
    countFilesForest (buildFsTree (fun _ => strCodes "x = 1\n") ⟨false, [], []⟩
        (fun _ => false) [] [.file (strCodes "a.py") false]) = 1 ∧
    ∃ s, runAnalysis (fun _ => strCodes "x = 1\n") ⟨false, [], []⟩
        (fun _ => false) [] [.file (strCodes "a.py") false] 1 false
        (fun _ => none) [] = Except.ok s :=
  ⟨by decide,
   (c9_file_ceiling (fun _ => strCodes "x = 1\n") ⟨false, [], []⟩ (fun _ => false)
      [] [.file (strCodes "a.py") false] 1 false (fun _ => none) []).2 (by decide)⟩

/-! ### Cache round-trip and second-run stability (claim C4) -/

/-- The content hash both `analyze_file_stats` and `_stats_from_cache`
compute for the current content of `f`. -/
def hashOfContent (disk : List Nat → List Nat) (f : List Nat) : String :=
  sha256Hex (encodeUtf8 (readText (disk f)))

/-- The cache key `_stats_from_cache` and `_write_cache` derive for the
current content of `f`. -/
def keyOf (disk : List Nat → List Nat) (f : List Nat) : String :=
  cacheKey f (hashOfContent disk f)

theorem roundStep_length (st : List Nat) (kw : Nat × Nat) :
    (roundStep st kw).length = st.length := by
  unfold roundStep
  split
  · rfl
  · rfl

theorem foldl_roundStep_length (l : List (Nat × Nat)) :
    ∀ hs : List Nat, (l.foldl roundStep hs).length = hs.length := by
  induction l with
  | nil => intro hs; rfl
  | cons kw rest ih =>
    intro hs
    rw [List.foldl_cons, ih, roundStep_length]

theorem sha256Words_length (msg : List Nat) : (sha256Words msg).length = 8 := by
  unfold sha256Words
  generalize chunksOf 64 (padMessage msg) = blocks
  have h : ∀ (bs : List (List Nat)) (hs : List Nat), hs.length = 8 →
      (bs.foldl processBlock hs).length = 8 := by
    intro bs
    induction bs with
    | nil => intro hs h; exact h
    | cons b rest ih =>
      intro hs h
      rw [List.foldl_cons]
      apply ih
      unfold processBlock
      rw [List.length_map, List.length_zip, h, foldl_roundStep_length, h]
      exact Nat.min_self 8
  exact h blocks sha256H0 rfl

theorem sha256Hex_ne_empty (msg : List Nat) : sha256Hex msg ≠ "" := by
  unfold sha256Hex
  intro h
  have hdata : ((sha256Bytes msg).flatMap
      (fun b => [hexChar (b / 16), hexChar (b % 16)])) = [] :=
    congrArg String.data h
  have hbytes : sha256Bytes msg = [] := by
    cases hb : sha256Bytes msg with
    | nil => rfl
    | cons b rest =>
      rw [hb] at hdata
      cases hdata
  have hwords : sha256Words msg = [] := by
    cases hw : sha256Words msg with
    | nil => rfl
    | cons w rest =>
      unfold sha256Bytes at hbytes
      rw [hw] at hbytes
      cases hbytes
  have := sha256Words_length msg
  rw [hwords] at this
  cases this

theorem sha256Hex_isEmpty_false (msg : List Nat) :
    (sha256Hex msg).isEmpty = false := by
  cases h : (sha256Hex msg).isEmpty with
  | false => rfl
  | true => exact absurd ((String.isEmpty_iff _).mp h) (sha256Hex_ne_empty msg)

theorem analyzeFileStats_hash (disk : List Nat → List Nat) (f : List Nat)
    (s : FileStats) (h : analyzeFileStats disk f = some s) :
    s.content_hash = hashOfContent disk f := by
  unfold analyzeFileStats at h
  cases hL : languageOf f with
  | none => rw [hL] at h; cases h
  | some L =>
    rw [hL] at h
    dsimp only at h
    cases h
    rfl

theorem lookupCache_append_self (c : Cache) (k : String) (p : CachePayload)
    (h : lookupCache c k = none) :
    lookupCache (c ++ [(k, p)]) k = some p := by
  unfold lookupCache at h ⊢
  rw [List.find?_append]
  have hfind : c.find? (fun e => e.1 == k) = none := by
    cases hf : c.find? (fun e => e.1 == k) with
    | none => rfl
    | some x => rw [hf] at h; cases h
  rw [hfind]
  show (List.find? (fun e => e.1 == k) [(k, p)]).map (fun e => e.2) = some p
  rw [List.find?_cons_of_pos _ (by simp)]
  rfl

theorem lookupCache_append_other (c : Cache) (k k' : String) (p : CachePayload)
    (hne : (k' == k) = false) :
    lookupCache (c ++ [(k', p)]) k = lookupCache c k := by
  unfold lookupCache
  rw [List.find?_append]
  cases hf : c.find? (fun e => e.1 == k) with
  | some x => rfl
  | none =>
    show (Option.none.orElse fun _ => List.find? (fun e => e.1 == k) [(k', p)]).map _ = _
    rw [show List.find? (fun e => e.1 == k) [(k', p)] = none from
      List.find?_cons_of_neg _ (by simp [hne])]
    rfl

/-- C4 part 1: writing stats computed for the current content at a fresh key
makes a subsequent `_stats_from_cache` for the same path and content return
exactly the stored pair. -/
theorem writeCache_roundtrip (disk : List Nat → List Nat) (f : List Nat)
    (c : Cache) (s : FileStats) (pm : Option PyMetrics)
    (hs : analyzeFileStats disk f = some s)
    (hfresh : lookupCache c (keyOf disk f) = none) :
    statsFromCacheM disk f (writeCacheM f (some s) pm c) = (some s, pm) := by
  have hh : s.content_hash = hashOfContent disk f := analyzeFileStats_hash disk f s hs
  have hkey : cacheKey f s.content_hash = keyOf disk f := by rw [hh]; rfl
  unfold writeCacheM
  dsimp only
  rw [show s.content_hash.isEmpty = false from by
    rw [hh]; exact sha256Hex_isEmpty_false _]
  simp only [Bool.false_eq_true, if_false]
  rw [hkey, hfresh]
  simp only [Option.isSome_none, Bool.false_eq_true, if_false]
  unfold statsFromCacheM
  dsimp only
  rw [show cacheKey f (sha256Hex (encodeUtf8 (readText (disk f)))) = keyOf disk f
    from rfl]
  unfold statsFromCacheAtKey
  rw [lookupCache_append_self c (keyOf disk f) ⟨some s, pm⟩ hfresh]

/-- The exact payload `_write_cache` stores for file `f` on a miss. -/
def filePayload (disk : List Nat → List Nat)
    (pyM : List Nat → Option PyMetrics) (f : List Nat) : CachePayload :=
  ⟨analyzeFileStats disk f, pyM f⟩

/-- Every hit in `c` at a key of one of `files` returns that file's exact
payload. -/
def CacheCoherent (disk : List Nat → List Nat)
    (pyM : List Nat → Option PyMetrics) (files : List (List Nat))
    (c : Cache) : Prop :=
  ∀ f ∈ files, ∀ p, lookupCache c (keyOf disk f) = some p →
    p = filePayload disk pyM f

/-- SHA-256 key collisions between distinct files of the run would have to
identify their analysis results (trivially true when keys are distinct). -/
def KeysInjective (disk : List Nat → List Nat)
    (pyM : List Nat → Option PyMetrics) (files : List (List Nat)) : Prop :=
  ∀ f ∈ files, ∀ g ∈ files, keyOf disk f = keyOf disk g →
    analyzeFileStats disk f = analyzeFileStats disk g ∧ pyM f = pyM g

def FullyCached (disk : List Nat → List Nat)
    (pyM : List Nat → Option PyMetrics) (files : List (List Nat))
    (c : Cache) : Prop :=
  ∀ f ∈ files, (analyzeFileStats disk f).isSome = true →
    lookupCache c (keyOf disk f) = some (filePayload disk pyM f)

/-- Cache-independent versions of the three per-file aggregate updates. -/
def pureLangStep (disk : List Nat → List Nat) (m : List (String × Nat))
    (f : List Nat) : List (String × Nat) :=
  match analyzeFileStats disk f with
  | some s => updAssoc m s.language s.code
  | none => m

def tfStep (pyM : List Nat → Option PyMetrics) (a : Nat) (f : List Nat) : Nat :=
  a + (match pyM f with | some m => m.function_count | none => 0)

def tcStep (pyM : List Nat → Option PyMetrics) (a : ℚ) (f : List Nat) : ℚ :=
  a + (match pyM f with | some m => m.total_complexity | none => 0)

theorem statsFromCacheM_eq (disk : List Nat → List Nat) (f : List Nat)
    (c : Cache) :
    statsFromCacheM disk f c = statsFromCacheAtKey c (keyOf disk f) := rfl

theorem writeCacheM_none (f : List Nat) (pm : Option PyMetrics) (c : Cache) :
    writeCacheM f none pm c = c := rfl

theorem writeCacheM_hit (disk : List Nat → List Nat) (f : List Nat)
    (s : FileStats) (pm : Option PyMetrics) (c : Cache)
    (hs : analyzeFileStats disk f = some s)
    (hhit : (lookupCache c (keyOf disk f)).isSome = true) :
    writeCacheM f (some s) pm c = c := by
  unfold writeCacheM
  dsimp only
  rw [show s.content_hash.isEmpty = false from by
      rw [analyzeFileStats_hash disk f s hs]; exact sha256Hex_isEmpty_false _,
    show cacheKey f s.content_hash = keyOf disk f from by
      rw [analyzeFileStats_hash disk f s hs]; rfl, hhit]
  simp

theorem writeCacheM_fresh (disk : List Nat → List Nat) (f : List Nat)
    (s : FileStats) (pm : Option PyMetrics) (c : Cache)
    (hs : analyzeFileStats disk f = some s)
    (hfresh : lookupCache c (keyOf disk f) = none) :
    writeCacheM f (some s) pm c = c ++ [(keyOf disk f, ⟨some s, pm⟩)] := by
  unfold writeCacheM
  dsimp only
  rw [show s.content_hash.isEmpty = false from by
      rw [analyzeFileStats_hash disk f s hs]; exact sha256Hex_isEmpty_false _,
    show cacheKey f s.content_hash = keyOf disk f from by
      rw [analyzeFileStats_hash disk f s hs]; rfl, hfresh]
  simp

theorem lookupCache_append_left (c : Cache) (l : Cache) (k : String)
    (p : CachePayload) (h : lookupCache c k = some p) :
    lookupCache (c ++ l) k = some p := by
  unfold lookupCache at h ⊢
  rw [List.find?_append]
  cases hf : c.find? (fun e => e.1 == k) with
  | none => rw [hf] at h; cases h
  | some x =>
    rw [hf] at h
    exact h

/-- Characterization of one loop iteration on a cache hit with the file's
exact payload: aggregates advance purely and the cache is unchanged. -/
theorem runLocStep_hit (disk : List Nat → List Nat)
    (pyM : List Nat → Option PyMetrics) (st : LocState) (f : List Nat)
    (hp : lookupCache st.cache (keyOf disk f) = some (filePayload disk pyM f)) :
    runLocStep disk true pyM st f =
      ⟨pureLangStep disk st.lang_loc f,
       tfStep pyM st.total_function_count f,
       tcStep pyM st.total_complexity_sum f, st.cache⟩ := by
  unfold runLocStep
  rw [if_pos rfl, statsFromCacheM_eq]
  unfold statsFromCacheAtKey
  rw [hp]
  show LocState.mk _ _ _ _ = _
  unfold filePayload pureLangStep tfStep tcStep
  dsimp only
  cases ha : analyzeFileStats disk f with
  | some s =>
    cases hm : pyM f with
    | some m => simp [ha, hm]
    | none =>
      simp only [ha, hm, Option.isNone_some, Option.isNone_none, Bool.false_or,
        Bool.and_true, if_true]
      rw [writeCacheM_hit disk f s none st.cache ha (by rw [hp]; rfl)]
  | none =>
    cases hm : pyM f with
    | some m =>
      simp only [ha, hm, Option.isNone_none, Option.isNone_some, Bool.true_or,
        Bool.and_true, if_true]
      rw [writeCacheM_none]
    | none =>
      simp only [ha, hm, Option.isNone_none, Bool.true_or, Bool.and_true, if_true]
      rw [writeCacheM_none]

/-- Characterization of one loop iteration on a cache miss: aggregates
advance purely and the computed payload is written back. -/
theorem runLocStep_miss (disk : List Nat → List Nat)
    (pyM : List Nat → Option PyMetrics) (st : LocState) (f : List Nat)
    (hp : lookupCache st.cache (keyOf disk f) = none) :
    runLocStep disk true pyM st f =
      ⟨pureLangStep disk st.lang_loc f,
       tfStep pyM st.total_function_count f,
       tcStep pyM st.total_complexity_sum f,
       writeCacheM f (analyzeFileStats disk f) (pyM f) st.cache⟩ := by
  unfold runLocStep
  rw [if_pos rfl, statsFromCacheM_eq]
  unfold statsFromCacheAtKey
  rw [hp]
  show LocState.mk _ _ _ _ = _
  unfold pureLangStep tfStep tcStep
  dsimp only
  cases ha : analyzeFileStats disk f with
  | some s => simp [ha]
  | none => simp [ha]

theorem coherent_after_write (disk : List Nat → List Nat)
    (pyM : List Nat → Option PyMetrics) (files0 : List (List Nat))
    (H : KeysInjective disk pyM files0) (c : Cache) (f : List Nat)
    (hf : f ∈ files0) (hc : CacheCoherent disk pyM files0 c) :
    CacheCoherent disk pyM files0
      (writeCacheM f (analyzeFileStats disk f) (pyM f) c) := by
  cases ha : analyzeFileStats disk f with
  | none =>
    rw [writeCacheM_none]
    exact hc
  | some s =>
    cases hlk : lookupCache c (keyOf disk f) with
    | some p =>
      rw [writeCacheM_hit disk f s (pyM f) c ha (by rw [hlk]; rfl)]
      exact hc
    | none =>
      rw [writeCacheM_fresh disk f s (pyM f) c ha hlk]
      intro g hg p hp
      by_cases hk : keyOf disk g = keyOf disk f
      · rcases hgc : lookupCache c (keyOf disk g) with _ | q
        · rw [hk, lookupCache_append_self c _ _ (hk ▸ hgc)] at hp
          cases hp
          obtain ⟨h1, h2⟩ := H g hg f hf hk
          unfold filePayload
          rw [h1, h2, ha]
        · rw [lookupCache_append_left c _ _ q hgc] at hp
          cases hp
          exact hc g hg _ hgc
      · rw [lookupCache_append_other c _ _ _ (by
          cases hbeq : (keyOf disk f == keyOf disk g) with
          | false => rfl
          | true => exact absurd (eq_comm.mp (eq_of_beq hbeq)) hk)] at hp
        exact hc g hg p hp

theorem fullyCached_mono (disk : List Nat → List Nat)
    (pyM : List Nat → Option PyMetrics) (c c' : Cache)
    (hmono : ∀ k p, lookupCache c k = some p → lookupCache c' k = some p)
    (files : List (List Nat)) (h : FullyCached disk pyM files c) :
    FullyCached disk pyM files c' :=
  fun f hf hs => hmono _ _ (h f hf hs)

/-- First-run invariant: from a coherent cache, the loop computes the pure
aggregates, keeps the cache coherent, only appends entries, and ends with
every analyzable processed file cached. -/
theorem runLoc_fold_inv (disk : List Nat → List Nat)
    (pyM : List Nat → Option PyMetrics) (files0 : List (List Nat))
    (H : KeysInjective disk pyM files0) :
    ∀ (fs : List (List Nat)), (∀ f ∈ fs, f ∈ files0) →
    ∀ (st : LocState), CacheCoherent disk pyM files0 st.cache →
      (fs.foldl (runLocStep disk true pyM) st).lang_loc =
        fs.foldl (pureLangStep disk) st.lang_loc ∧
      (fs.foldl (runLocStep disk true pyM) st).total_function_count =
        fs.foldl (tfStep pyM) st.total_function_count ∧
      (fs.foldl (runLocStep disk true pyM) st).total_complexity_sum =
        fs.foldl (tcStep pyM) st.total_complexity_sum ∧
      CacheCoherent disk pyM files0 (fs.foldl (runLocStep disk true pyM) st).cache ∧
      (∀ k p, lookupCache st.cache k = some p →
        lookupCache (fs.foldl (runLocStep disk true pyM) st).cache k = some p) ∧
      FullyCached disk pyM fs (fs.foldl (runLocStep disk true pyM) st).cache := by
  intro fs
  induction fs with
  | nil =>
    intro _ st hc
    exact ⟨rfl, rfl, rfl, hc, fun _ _ h => h, fun f hf => absurd hf
      (List.not_mem_nil f)⟩
  | cons f fs' ih =>
    intro hsub st hc
    have hff : f ∈ files0 := hsub f (List.mem_cons_self f fs')
    have hsub' : ∀ g ∈ fs', g ∈ files0 :=
      fun g hg => hsub g (List.mem_cons_of_mem f hg)
    cases hlk : lookupCache st.cache (keyOf disk f) with
    | some p =>
      have hpay := hc f hff p hlk
      subst hpay
      rw [List.foldl_cons, runLocStep_hit disk pyM st f hlk]
      obtain ⟨h1, h2, h3, h4, h5, h6⟩ := ih hsub'
        ⟨pureLangStep disk st.lang_loc f, tfStep pyM st.total_function_count f,
         tcStep pyM st.total_complexity_sum f, st.cache⟩ hc
      refine ⟨h1, h2, h3, h4, h5, ?_⟩
      intro g hg hgs
      rcases List.mem_cons.mp hg with rfl | hg'
      · exact h5 _ _ hlk
      · exact h6 g hg' hgs
    | none =>
      rw [List.foldl_cons, runLocStep_miss disk pyM st f hlk]
      have hc' : CacheCoherent disk pyM files0
          (writeCacheM f (analyzeFileStats disk f) (pyM f) st.cache) :=
        coherent_after_write disk pyM files0 H st.cache f hff hc
      obtain ⟨h1, h2, h3, h4, h5, h6⟩ := ih hsub'
        ⟨pureLangStep disk st.lang_loc f, tfStep pyM st.total_function_count f,
         tcStep pyM st.total_complexity_sum f,
         writeCacheM f (analyzeFileStats disk f) (pyM f) st.cache⟩ hc'
      have hwmono : ∀ k p, lookupCache st.cache k = some p →
          lookupCache (writeCacheM f (analyzeFileStats disk f) (pyM f) st.cache)
            k = some p := by
        intro k p hkp
        cases ha : analyzeFileStats disk f with
        | none => rw [writeCacheM_none]; exact hkp
        | some s =>
          rw [writeCacheM_fresh disk f s (pyM f) st.cache ha hlk]
          exact lookupCache_append_left st.cache _ k p hkp
      refine ⟨h1, h2, h3, h4, fun k p hkp => h5 k p (hwmono k p hkp), ?_⟩
      intro g hg hgs
      rcases List.mem_cons.mp hg with rfl | hg'
      · apply h5
        cases ha : analyzeFileStats disk g with
        | none => rw [ha] at hgs; cases hgs
        | some s =>
          rw [writeCacheM_fresh disk g s (pyM g) st.cache ha hlk]
          have : filePayload disk pyM g = ⟨some s, pyM g⟩ := by
            unfold filePayload
            rw [ha]
          rw [this]
          exact lookupCache_append_self st.cache _ _ hlk
      · exact h6 g hg' hgs

/-- Second-run invariant: from a coherent, fully-cached cache the loop
computes the same pure aggregates and leaves the cache unchanged. -/
theorem runLoc_fold_stable (disk : List Nat → List Nat)
    (pyM : List Nat → Option PyMetrics) (files0 : List (List Nat)) :
    ∀ (fs : List (List Nat)), (∀ f ∈ fs, f ∈ files0) →
    ∀ (st : LocState), CacheCoherent disk pyM files0 st.cache →
      FullyCached disk pyM fs st.cache →
      (fs.foldl (runLocStep disk true pyM) st).lang_loc =
        fs.foldl (pureLangStep disk) st.lang_loc ∧
      (fs.foldl (runLocStep disk true pyM) st).total_function_count =
        fs.foldl (tfStep pyM) st.total_function_count ∧
      (fs.foldl (runLocStep disk true pyM) st).total_complexity_sum =
        fs.foldl (tcStep pyM) st.total_complexity_sum ∧
      (fs.foldl (runLocStep disk true pyM) st).cache = st.cache := by
  intro fs
  induction fs with
  | nil => intro _ st _ _; exact ⟨rfl, rfl, rfl, rfl⟩
  | cons f fs' ih =>
    intro hsub st hc hfull
    have hff : f ∈ files0 := hsub f (List.mem_cons_self f fs')
    have hsub' : ∀ g ∈ fs', g ∈ files0 :=
      fun g hg => hsub g (List.mem_cons_of_mem f hg)
    have hfull' : FullyCached disk pyM fs' st.cache :=
      fun g hg => hfull g (List.mem_cons_of_mem f hg)
    have hstep : runLocStep disk true pyM st f =
        ⟨pureLangStep disk st.lang_loc f, tfStep pyM st.total_function_count f,
         tcStep pyM st.total_complexity_sum f, st.cache⟩ := by
      cases ha : analyzeFileStats disk f with
      | some s =>
        exact runLocStep_hit disk pyM st f
          (hfull f (List.mem_cons_self f fs') (by rw [ha]; rfl))
      | none =>
        cases hlk : lookupCache st.cache (keyOf disk f) with
        | some p =>
          exact runLocStep_hit disk pyM st f (by rw [hlk, hc f hff p hlk])
        | none =>
          rw [runLocStep_miss disk pyM st f hlk, ha, writeCacheM_none]
    rw [List.foldl_cons, hstep]
    exact ih hsub'
      ⟨pureLangStep disk st.lang_loc f, tfStep pyM st.total_function_count f,
       tcStep pyM st.total_complexity_sum f, st.cache⟩ hc hfull'

theorem lookupCache_nil (k : String) : lookupCache [] k = none := rfl

/-- C4: (1) after `_write_cache` stores the stats and metrics computed for a
content at a fresh key, `_stats_from_cache` on the same path and content
returns exactly the stored pair; (2) a second `run_analysis` over the
unchanged repository with the cache populated by a first run from an empty
cache returns the same repository summary and leaves the cache unchanged.
The `KeysInjective` hypothesis says SHA-256 produces no colliding cache keys
among the run's files (checkable, and trivially true for distinct keys). -/
theorem c4_cache_correctness (disk : List Nat → List Nat)
    (pyM : List Nat → Option PyMetrics) (o : BuildOpts) (ign : List Nat → Bool)
    (rootAbs : List Nat) (entries : List Entry) (maxFiles : Nat)
    (H : KeysInjective disk pyM
      (flattenPaths rootAbs (buildFsTree disk o ign rootAbs entries)))
    (hok : (runAnalysis disk o ign rootAbs entries maxFiles true pyM
      []).isOk = true) :
    (∀ (f : List Nat) (c : Cache) (s : FileStats) (pm : Option PyMetrics),
       analyzeFileStats disk f = some s →
       lookupCache c (keyOf disk f) = none →
       statsFromCacheM disk f (writeCacheM f (some s) pm c) = (some s, pm)) ∧
    (∃ r1 r2,
       runAnalysis disk o ign rootAbs entries maxFiles true pyM [] =
         Except.ok r1 ∧
       runAnalysis disk o ign rootAbs entries maxFiles true pyM r1.2 =
         Except.ok r2 ∧
       r2.1 = r1.1 ∧ r2.2 = r1.2) := by
  refine ⟨fun f c s pm hs hfresh => writeCache_roundtrip disk f c s pm hs hfresh, ?_⟩
  by_cases hlim : (flattenPaths rootAbs
      (buildFsTree disk o ign rootAbs entries)).length > maxFiles
  · exfalso
    unfold runAnalysis at hok
    rw [if_pos hlim] at hok
    cases hok
  · have hco : CacheCoherent disk pyM
        (flattenPaths rootAbs (buildFsTree disk o ign rootAbs entries)) [] := by
      intro f _ p hp
      rw [lookupCache_nil] at hp
      cases hp
    obtain ⟨i1, i2, i3, i4, i5, i6⟩ :=
      runLoc_fold_inv disk pyM
        (flattenPaths rootAbs (buildFsTree disk o ign rootAbs entries)) H
        (flattenPaths rootAbs (buildFsTree disk o ign rootAbs entries))
        (fun _ h => h) ⟨[], 0, 0, []⟩ hco
    obtain ⟨s1, s2, s3, s4⟩ :=
      runLoc_fold_stable disk pyM
        (flattenPaths rootAbs (buildFsTree disk o ign rootAbs entries))
        (flattenPaths rootAbs (buildFsTree disk o ign rootAbs entries))
        (fun _ h => h)
        ⟨[], 0, 0, (runLocAndMetrics disk true pyM
          (flattenPaths rootAbs (buildFsTree disk o ign rootAbs entries))
          []).cache⟩ i4 i6
    have hll : (runLocAndMetrics disk true pyM
        (flattenPaths rootAbs (buildFsTree disk o ign rootAbs entries))
        (runLocAndMetrics disk true pyM
          (flattenPaths rootAbs (buildFsTree disk o ign rootAbs entries))
          []).cache).lang_loc =
        (runLocAndMetrics disk true pyM
          (flattenPaths rootAbs (buildFsTree disk o ign rootAbs entries))
          []).lang_loc := by
      simp only [runLocAndMetrics] at s1 i1 ⊢
      rw [s1, i1]
    have htf : (runLocAndMetrics disk true pyM
        (flattenPaths rootAbs (buildFsTree disk o ign rootAbs entries))
        (runLocAndMetrics disk true pyM
          (flattenPaths rootAbs (buildFsTree disk o ign rootAbs entries))
          []).cache).total_function_count =
        (runLocAndMetrics disk true pyM
          (flattenPaths rootAbs (buildFsTree disk o ign rootAbs entries))
          []).total_function_count := by
      simp only [runLocAndMetrics] at s2 i2 ⊢
      rw [s2, i2]
    have hcc : (runLocAndMetrics disk true pyM
        (flattenPaths rootAbs (buildFsTree disk o ign rootAbs entries))
        (runLocAndMetrics disk true pyM
          (flattenPaths rootAbs (buildFsTree disk o ign rootAbs entries))
          []).cache).cache =
        (runLocAndMetrics disk true pyM
          (flattenPaths rootAbs (buildFsTree disk o ign rootAbs entries))
          []).cache := by
      simp only [runLocAndMetrics] at s4 ⊢
      exact s4
    refine ⟨(⟨(flattenPaths rootAbs (buildFsTree disk o ign rootAbs entries)).length,
        (runLocAndMetrics disk true pyM
          (flattenPaths rootAbs (buildFsTree disk o ign rootAbs entries))
          []).lang_loc,
        ((runLocAndMetrics disk true pyM
          (flattenPaths rootAbs (buildFsTree disk o ign rootAbs entries))
          []).lang_loc.map (fun p => p.2)).sum,
        primaryLanguage (runLocAndMetrics disk true pyM
          (flattenPaths rootAbs (buildFsTree disk o ign rootAbs entries))
          []).lang_loc,
        (runLocAndMetrics disk true pyM
          (flattenPaths rootAbs (buildFsTree disk o ign rootAbs entries))
          []).total_function_count⟩,
        (runLocAndMetrics disk true pyM
          (flattenPaths rootAbs (buildFsTree disk o ign rootAbs entries))
          []).cache),
      (⟨(flattenPaths rootAbs (buildFsTree disk o ign rootAbs entries)).length,
        (runLocAndMetrics disk true pyM
          (flattenPaths rootAbs (buildFsTree disk o ign rootAbs entries))
          (runLocAndMetrics disk true pyM
            (flattenPaths rootAbs (buildFsTree disk o ign rootAbs entries))
            []).cache).lang_loc,
        ((runLocAndMetrics disk true pyM
          (flattenPaths rootAbs (buildFsTree disk o ign rootAbs entries))
          (runLocAndMetrics disk true pyM
            (flattenPaths rootAbs (buildFsTree disk o ign rootAbs entries))
            []).cache).lang_loc.map (fun p => p.2)).sum,
        primaryLanguage (runLocAndMetrics disk true pyM
          (flattenPaths rootAbs (buildFsTree disk o ign rootAbs entries))
          (runLocAndMetrics disk true pyM
            (flattenPaths rootAbs (buildFsTree disk o ign rootAbs entries))
            []).cache).lang_loc,
        (runLocAndMetrics disk true pyM
          (flattenPaths rootAbs (buildFsTree disk o ign rootAbs entries))
          (runLocAndMetrics disk true pyM
            (flattenPaths rootAbs (buildFsTree disk o ign rootAbs entries))
            []).cache).total_function_count⟩,
        (runLocAndMetrics disk true pyM
          (flattenPaths rootAbs (buildFsTree disk o ign rootAbs entries))
          (runLocAndMetrics disk true pyM
            (flattenPaths rootAbs (buildFsTree disk o ign rootAbs entries))
            []).cache).cache), ?_, ?_, ?_, ?_⟩
    · unfold runAnalysis
      rw [if_neg hlim]
    · unfold runAnalysis
      rw [if_neg hlim]
    · show (⟨_, _, _, _, _⟩ : RepositorySummary) = ⟨_, _, _, _, _⟩
      rw [hll, htf]
    · exact hcc

set_option maxRecDepth 100000 in
/-- Witness for C4 on a two-file repository. -/
theorem c4_witness :
    (KeysInjective
        (fun p => if p == strCodes "a.py" then strCodes "x = 1\n"
          else strCodes "# c\ny = 2\n")
        (fun _ => none)
        (flattenPaths []
          (buildFsTree
            (fun p => if p == strCodes "a.py" then strCodes "x = 1\n"
              else strCodes "# c\ny = 2\n")
            ⟨false, [], []⟩ (fun _ => false) []
            [.file (strCodes "a.py") false, .file (strCodes "b.py") false])) ∧
     (runAnalysis
        (fun p => if p == strCodes "a.py" then strCodes "x = 1\n"
          else strCodes "# c\ny = 2\n")
        ⟨false, [], []⟩ (fun _ => false) []
        [.file (strCodes "a.py") false, .file (strCodes "b.py") false]
        5 true (fun _ => none) []).isOk = true) ∧
    ((∀ (f : List Nat) (c : Cache) (s : FileStats) (pm : Option PyMetrics),
       analyzeFileStats
         (fun p => if p == strCodes "a.py" then strCodes "x = 1\n"
           else strCodes "# c\ny = 2\n") f = some s →
       lookupCache c (keyOf
         (fun p => if p == strCodes "a.py" then strCodes "x = 1\n"
           else strCodes "# c\ny = 2\n") f) = none →
       statsFromCacheM
         (fun p => if p == strCodes "a.py" then strCodes "x = 1\n"
           else strCodes "# c\ny = 2\n") f (writeCacheM f (some s) pm c) =
         (some s, pm)) ∧
     (∃ r1 r2,
       runAnalysis
         (fun p => if p == strCodes "a.py" then strCodes "x = 1\n"
           else strCodes "# c\ny = 2\n")
         ⟨false, [], []⟩ (fun _ => false) []
         [.file (strCodes "a.py") false, .file (strCodes "b.py") false]
         5 true (fun _ => none) [] = Except.ok r1 ∧
       runAnalysis
         (fun p => if p == strCodes "a.py" then strCodes "x = 1\n"
           else strCodes "# c\ny = 2\n")
         ⟨false, [], []⟩ (fun _ => false) []
         [.file (strCodes "a.py") false, .file (strCodes "b.py") false]
         5 true (fun _ => none) r1.2 = Except.ok r2 ∧
       r2.1 = r1.1 ∧ r2.2 = r1.2)) :=
  ⟨⟨by unfold KeysInjective; decide, by decide⟩,
   c4_cache_correctness
     (fun p => if p == strCodes "a.py" then strCodes "x = 1\n"
       else strCodes "# c\ny = 2\n")
     (fun _ => none) ⟨false, [], []⟩ (fun _ => false) []
     [.file (strCodes "a.py") false, .file (strCodes "b.py") false] 5
     (by unfold KeysInjective; decide) (by decide)⟩

/-! ## `important.py`: largest files (claim C10) -/

/-- `NON_SOURCE_EXTENSIONS`: extensions excluded from `largest_files`. -/
def NON_SOURCE_EXTENSIONS : List (List Nat) :=
  [strCodes ".pt", strCodes ".pth", strCodes ".bin", strCodes ".onnx",
   strCodes ".safetensors", strCodes ".npz", strCodes ".npy", strCodes ".csv",
   strCodes ".json", strCodes ".parquet", strCodes ".pkl", strCodes ".joblib",
   strCodes ".log", strCodes ".txt", strCodes ".png", strCodes ".jpg",
   strCodes ".jpeg", strCodes ".gif", strCodes ".svg", strCodes ".ico",
   strCodes ".mp4", strCodes ".mp3", strCodes ".zip", strCodes ".gz",
   strCodes ".tar", strCodes ".pdf"]

structure LargestFileItem where
  path : List Nat
  size_bytes : Nat
  is_lfs : Bool
deriving DecidableEq, Repr

/-- Python's stable descending sort by `size_bytes` (`list.sort` with
`reverse=True`). -/
def metaSizeGe (a b : FileMeta) : Prop := b.size_bytes ≤ a.size_bytes

instance : DecidableRel metaSizeGe :=
  fun a b => inferInstanceAs (Decidable (b.size_bytes ≤ a.size_bytes))

/-- The `largest_files` section of `find_key_files`: flatten with metadata,
drop non-source extensions, sort by size descending, take the first `top_n`,
and report `(path, size_bytes, is_lfs)`. -/
def findKeyFilesLargest (tree : List FsNode) (topN : Nat) :
    List LargestFileItem :=
  let allFilesWithMeta := flattenMeta [] tree
  let sourceFilesOnly := allFilesWithMeta.filter
    (fun f => !(NON_SOURCE_EXTENSIONS.any (fun x => x == pyLower (pySuffixOfPath f.path))))
  let sorted := List.insertionSort metaSizeGe sourceFilesOnly
  (sorted.take (max 0 topN)).map (fun f => ⟨f.path, f.size_bytes, f.is_lfs_pointer⟩)

/-- C10: every entry of `largest_files` has a lower-cased extension outside
`NON_SOURCE_EXTENSIONS`, whatever its size. -/
theorem c10_largest_files_source_only (tree : List FsNode) (topN : Nat) :
    ∀ item ∈ findKeyFilesLargest tree topN,
      (NON_SOURCE_EXTENSIONS.any
        (fun x => x == pyLower (pySuffixOfPath item.path))) = false := by
  intro item hitem
  unfold findKeyFilesLargest at hitem
  obtain ⟨f, hf, rfl⟩ := List.mem_map.mp hitem
  have hf1 : f ∈ List.insertionSort metaSizeGe
      ((flattenMeta [] tree).filter
        (fun f => !(NON_SOURCE_EXTENSIONS.any
          (fun x => x == pyLower (pySuffixOfPath f.path))))) :=
    List.take_subset _ _ hf
  have hf2 : f ∈ (flattenMeta [] tree).filter
      (fun f => !(NON_SOURCE_EXTENSIONS.any
        (fun x => x == pyLower (pySuffixOfPath f.path)))) :=
    (List.perm_insertionSort metaSizeGe _).mem_iff.mp hf1
  have hp := List.of_mem_filter hf2
  cases h : NON_SOURCE_EXTENSIONS.any
      (fun x => x == pyLower (pySuffixOfPath f.path)) with
  | false => rfl
  | true => rw [h] at hp; cases hp

/-- Witness for C10: with a 99-byte `big.zip` and a 10-byte `a.py`, the item
reported in `largest_files` is the Python file, whose extension is outside
the excluded set. -/
theorem c10_witness :
    ((⟨strCodes "a.py", 10, false⟩ : LargestFileItem) ∈
      findKeyFilesLargest
        [FsNode.file (strCodes "a.py") 10 false none,
         FsNode.file (strCodes "big.zip") 99 false none] 5) ∧
    (NON_SOURCE_EXTENSIONS.any
      (fun x => x == pyLower (pySuffixOfPath
        (⟨strCodes "a.py", 10, false⟩ : LargestFileItem).path))) = false :=
  ⟨by decide,
   c10_largest_files_source_only
     [FsNode.file (strCodes "a.py") 10 false none,
      FsNode.file (strCodes "big.zip") 99 false none] 5
     ⟨strCodes "a.py", 10, false⟩ (by decide)⟩

/-! ## The primary language (claim C7)

`primary_language = max(lang_loc, key=...) if lang_loc else None`, where
`lang_loc` is the insertion-ordered dict built by
`_run_loc_and_metrics_analysis`.  The claim is settled over an uncached run
(`use_cache=False`), where the loop body reduces to the pure per-file step
`pureLangStep`; claim C4's development shows cached runs produce the same
aggregates. -/

/-- The language `analyze_file_stats` recognizes for a file, if any. -/
def langOfFile (disk : List Nat → List Nat) (f : List Nat) : Option String :=
  (analyzeFileStats disk f).map (fun s => s.language)

/-- The file's contribution to its language's code-line total. -/
def codeOfFile (disk : List Nat → List Nat) (f : List Nat) : Nat :=
  match analyzeFileStats disk f with
  | some s => s.code
  | none => 0

/-- Aggregated code-line total of one language over a file list. -/
def codeTotal (disk : List Nat → List Nat) (files : List (List Nat))
    (L : String) : Nat :=
  ((files.filter (fun f => langOfFile disk f == some L)).map
    (codeOfFile disk)).sum

/-- Position of the first file recognized as language `L`. -/
def firstLangIdx (disk : List Nat → List Nat) (files : List (List Nat))
    (L : String) : Nat :=
  files.findIdx (fun f => langOfFile disk f == some L)

/-- First value stored under a key of an insertion-ordered dict. -/
def valOf : List (String × Nat) → String → Nat
  | [], _ => 0
  | (k, v) :: rest, L => if k = L then v else valOf rest L

theorem valOf_updAssoc (m : List (String × Nat)) (k : String) (c : Nat)
    (L : String) :
    valOf (updAssoc m k c) L =
      if k = L then valOf m L + c else valOf m L := by
  induction m with
  | nil =>
    show (if k = L then c else 0) = if k = L then 0 + c else 0
    split <;> simp
  | cons p rest ih =>
    obtain ⟨k1, v1⟩ := p
    show valOf (if k1 = k then (k1, v1 + c) :: rest
      else (k1, v1) :: updAssoc rest k c) L = _
    by_cases h1 : k1 = k
    · subst h1
      rw [if_pos rfl]
      show (if k1 = L then v1 + c else valOf rest L) = _
      by_cases h2 : k1 = L
      · rw [if_pos h2, if_pos h2]
        show v1 + c = valOf ((k1, v1) :: rest) L + c
        have : valOf ((k1, v1) :: rest) L = v1 := by
          show (if k1 = L then v1 else valOf rest L) = v1
          rw [if_pos h2]
        rw [this]
      · rw [if_neg h2, if_neg h2]
        show valOf rest L = valOf ((k1, v1) :: rest) L
        show valOf rest L = if k1 = L then v1 else valOf rest L
        rw [if_neg h2]
    · rw [if_neg h1]
      show (if k1 = L then v1 else valOf (updAssoc rest k c) L) = _
      by_cases h2 : k1 = L
      · have hk : k ≠ L := fun h => h1 (h2.trans h.symm)
        rw [if_pos h2, if_neg hk]
        show v1 = valOf ((k1, v1) :: rest) L
        show v1 = if k1 = L then v1 else valOf rest L
        rw [if_pos h2]
      · rw [if_neg h2, ih]
        have hval : valOf ((k1, v1) :: rest) L = valOf rest L := by
          show (if k1 = L then v1 else valOf rest L) = valOf rest L
          rw [if_neg h2]
        rw [hval]

theorem keys_updAssoc (m : List (String × Nat)) (k : String) (c : Nat) :
    (updAssoc m k c).map Prod.fst =
      if k ∈ m.map Prod.fst then m.map Prod.fst
      else m.map Prod.fst ++ [k] := by
  induction m with
  | nil => simp [updAssoc]
  | cons p rest ih =>
    obtain ⟨k1, v1⟩ := p
    show (if k1 = k then (k1, v1 + c) :: rest
      else (k1, v1) :: updAssoc rest k c).map Prod.fst = _
    by_cases h1 : k1 = k
    · subst h1
      rw [if_pos rfl, List.map_cons, List.map_cons,
        if_pos (List.mem_cons_self _ _)]
    · rw [if_neg h1, List.map_cons, List.map_cons, ih]
      by_cases h2 : k ∈ rest.map Prod.fst
      · rw [if_pos h2, if_pos (List.mem_cons_of_mem _ h2)]
      · rw [if_neg h2, if_neg (by
          intro hc
          rcases List.mem_cons.mp hc with hc | hc
          · exact h1 hc.symm
          · exact h2 hc), List.cons_append]

theorem valOf_eq_zero (m : List (String × Nat)) (L : String)
    (h : L ∉ m.map Prod.fst) : valOf m L = 0 := by
  induction m with
  | nil => rfl
  | cons p rest ih =>
    obtain ⟨k, v⟩ := p
    rw [List.map_cons] at h
    show (if k = L then v else valOf rest L) = 0
    rw [if_neg (fun hh => h (by rw [← hh]; exact List.mem_cons_self _ _)),
      ih (fun hh => h (List.mem_cons_of_mem _ hh))]

theorem valOf_of_mem (m : List (String × Nat))
    (hnd : (m.map Prod.fst).Nodup) (L : String) (v : Nat)
    (h : (L, v) ∈ m) : valOf m L = v := by
  induction m with
  | nil => cases h
  | cons p rest ih =>
    obtain ⟨k, w⟩ := p
    rw [List.map_cons] at hnd
    have hnd1 := List.nodup_cons.mp hnd
    show (if k = L then w else valOf rest L) = v
    rcases List.mem_cons.mp h with h1 | h1
    · cases h1
      rw [if_pos rfl]
    · by_cases hk : k = L
      · subst hk
        exact absurd (List.mem_map_of_mem Prod.fst h1) hnd1.1
      · rw [if_neg hk]
        exact ih hnd1.2 h1

theorem mem_of_key (m : List (String × Nat)) (L : String)
    (h : L ∈ m.map Prod.fst) : (L, valOf m L) ∈ m := by
  induction m with
  | nil => cases h
  | cons p rest ih =>
    obtain ⟨k, w⟩ := p
    rw [List.map_cons] at h
    show (L, if k = L then w else valOf rest L) ∈ (k, w) :: rest
    by_cases hk : k = L
    · subst hk
      rw [if_pos rfl]
      exact List.mem_cons_self _ _
    · rw [if_neg hk]
      rcases List.mem_cons.mp h with h1 | h1
      · exact absurd h1.symm hk
      · exact List.mem_cons_of_mem _ (ih h1)

theorem firstLangIdx_lt_iff (disk : List Nat → List Nat)
    (files : List (List Nat)) (L : String) :
    firstLangIdx disk files L < files.length ↔
      ∃ f ∈ files, langOfFile disk f = some L := by
  unfold firstLangIdx
  constructor
  · intro h
    exact ⟨files.get ⟨_, h⟩, List.get_mem files _ h,
      eq_of_beq
        (@List.findIdx_get _ (fun f => langOfFile disk f == some L) files h)⟩
  · intro ⟨f, hf, hL⟩
    exact List.findIdx_lt_length_of_exists ⟨f, hf, by rw [hL]; exact beq_self_eq_true _⟩

theorem firstLangIdx_append_lt (disk : List Nat → List Nat)
    (files : List (List Nat)) (g : List Nat) (L : String)
    (h : firstLangIdx disk files L < files.length) :
    firstLangIdx disk (files ++ [g]) L = firstLangIdx disk files L := by
  unfold firstLangIdx at h ⊢
  rw [List.findIdx_append, if_pos h]

theorem firstLangIdx_append_hit (disk : List Nat → List Nat)
    (files : List (List Nat)) (g : List Nat) (L : String)
    (h : ¬ firstLangIdx disk files L < files.length)
    (hg : langOfFile disk g = some L) :
    firstLangIdx disk (files ++ [g]) L = files.length := by
  unfold firstLangIdx at h ⊢
  rw [List.findIdx_append, if_neg h,
    show List.findIdx (fun f => langOfFile disk f == some L) [g] = 0 from by
      simp [List.findIdx_cons, hg]]
  omega

theorem firstLangIdx_append_miss (disk : List Nat → List Nat)
    (files : List (List Nat)) (g : List Nat) (L : String)
    (h : ¬ firstLangIdx disk files L < files.length)
    (hg : langOfFile disk g ≠ some L) :
    ¬ firstLangIdx disk (files ++ [g]) L < (files ++ [g]).length := by
  unfold firstLangIdx at h ⊢
  rw [List.findIdx_append, if_neg h, List.length_append,
    show List.findIdx (fun f => langOfFile disk f == some L) [g] = 1 from by
      simp only [List.findIdx_cons]
      rw [show (langOfFile disk g == some L) = false from
        beq_eq_false_iff_ne.mpr hg]
      rfl]
  simp only [List.length_singleton]
  omega

theorem codeTotal_append (disk : List Nat → List Nat)
    (files : List (List Nat)) (g : List Nat) (L : String) :
    codeTotal disk (files ++ [g]) L =
      codeTotal disk files L +
        (if langOfFile disk g = some L then codeOfFile disk g else 0) := by
  unfold codeTotal
  rw [List.filter_append, List.map_append, List.sum_append]
  congr 1
  by_cases hg : langOfFile disk g = some L
  · rw [if_pos hg]
    simp [List.filter_cons, hg]
  · rw [if_neg hg]
    simp [List.filter_cons, hg]

theorem codeTotal_eq_zero (disk : List Nat → List Nat)
    (files : List (List Nat)) (L : String)
    (h : ∀ f ∈ files, ¬ langOfFile disk f = some L) :
    codeTotal disk files L = 0 := by
  unfold codeTotal
  rw [List.filter_eq_nil_iff.mpr (by
    intro f hf
    simp only [beq_iff_eq]
    exact h f hf)]
  rfl

/-- Invariant of the pure `lang_loc` aggregation: a language is a key
exactly when some file is recognized as it, its stored value is its
aggregated code-line total, and keys appear in order of their first
contributing file. -/
theorem pureLangLoc_inv (disk : List Nat → List Nat)
    (files : List (List Nat)) :
    (∀ L, L ∈ (files.foldl (pureLangStep disk) []).map Prod.fst ↔
        firstLangIdx disk files L < files.length) ∧
    (∀ L, L ∈ (files.foldl (pureLangStep disk) []).map Prod.fst →
        valOf (files.foldl (pureLangStep disk) []) L =
          codeTotal disk files L) ∧
    List.Pairwise
      (fun a b => firstLangIdx disk files a < firstLangIdx disk files b)
      ((files.foldl (pureLangStep disk) []).map Prod.fst) := by
  induction files using List.reverseRecOn with
  | nil =>
    refine ⟨fun L => ?_, fun L h => absurd h (List.not_mem_nil L),
      List.Pairwise.nil⟩
    simp [firstLangIdx]
  | append_singleton fs g ih =>
    obtain ⟨ihA, ihB, ihC⟩ := ih
    rw [List.foldl_append]
    simp only [List.foldl_cons, List.foldl_nil, List.length_append,
      List.length_singleton]
    cases hg : analyzeFileStats disk g with
    | none =>
      have hstep : pureLangStep disk (fs.foldl (pureLangStep disk) []) g =
          fs.foldl (pureLangStep disk) [] := by
        unfold pureLangStep
        rw [hg]
      rw [hstep]
      have hlg : ∀ L, langOfFile disk g ≠ some L := by
        intro L hcon
        simp [langOfFile, hg] at hcon
      refine ⟨fun L => ?_, fun L hL => ?_, ?_⟩
      · by_cases hL : firstLangIdx disk fs L < fs.length
        · rw [firstLangIdx_append_lt disk fs g L hL]
          exact ⟨fun _ => by omega, fun _ => (ihA L).mpr hL⟩
        · have hmiss := firstLangIdx_append_miss disk fs g L hL (hlg L)
          simp only [List.length_append, List.length_singleton] at hmiss
          exact ⟨fun hmem => absurd ((ihA L).mp hmem) hL,
            fun hlt => absurd hlt hmiss⟩
      · rw [codeTotal_append disk fs g L, if_neg (hlg L), Nat.add_zero]
        exact ihB L hL
      · refine List.Pairwise.imp_of_mem ?_ ihC
        intro a b ha hb hab
        rw [firstLangIdx_append_lt disk fs g a ((ihA a).mp ha),
          firstLangIdx_append_lt disk fs g b ((ihA b).mp hb)]
        exact hab
    | some s =>
      have hstep : pureLangStep disk (fs.foldl (pureLangStep disk) []) g =
          updAssoc (fs.foldl (pureLangStep disk) []) s.language s.code := by
        unfold pureLangStep
        rw [hg]
      rw [hstep]
      have hlg : langOfFile disk g = some s.language := by
        simp [langOfFile, hg]
      have hcg : codeOfFile disk g = s.code := by
        unfold codeOfFile
        rw [hg]
      by_cases hmem : s.language ∈
          (fs.foldl (pureLangStep disk) []).map Prod.fst
      · have hkeys :
            (updAssoc (fs.foldl (pureLangStep disk) []) s.language
              s.code).map Prod.fst =
              (fs.foldl (pureLangStep disk) []).map Prod.fst := by
          rw [keys_updAssoc, if_pos hmem]
        rw [hkeys]
        have hidx0 : firstLangIdx disk fs s.language < fs.length :=
          (ihA s.language).mp hmem
        refine ⟨fun L => ?_, fun L hL => ?_, ?_⟩
        · by_cases hL : firstLangIdx disk fs L < fs.length
          · rw [firstLangIdx_append_lt disk fs g L hL]
            exact ⟨fun _ => by omega, fun _ => (ihA L).mpr hL⟩
          · have hne : langOfFile disk g ≠ some L := by
              rw [hlg]
              intro hcon
              exact hL ((Option.some.inj hcon) ▸ hidx0)
            have hmiss := firstLangIdx_append_miss disk fs g L hL hne
            simp only [List.length_append, List.length_singleton] at hmiss
            exact ⟨fun hmemL => absurd ((ihA L).mp hmemL) hL,
              fun hlt => absurd hlt hmiss⟩
        · rw [valOf_updAssoc, codeTotal_append disk fs g L]
          by_cases hLs : s.language = L
          · rw [if_pos hLs, if_pos (by rw [hlg, hLs]), hcg,
              ihB L hL]
          · rw [if_neg hLs,
              if_neg (by
                rw [hlg]
                intro hcon
                exact hLs (Option.some.inj hcon)),
              Nat.add_zero]
            exact ihB L hL
        · refine List.Pairwise.imp_of_mem ?_ ihC
          intro a b ha hb hab
          rw [firstLangIdx_append_lt disk fs g a ((ihA a).mp ha),
            firstLangIdx_append_lt disk fs g b ((ihA b).mp hb)]
          exact hab
      · have hkeys :
            (updAssoc (fs.foldl (pureLangStep disk) []) s.language
              s.code).map Prod.fst =
              (fs.foldl (pureLangStep disk) []).map Prod.fst ++
                [s.language] := by
          rw [keys_updAssoc, if_neg hmem]
        rw [hkeys]
        have hidx0 : ¬ firstLangIdx disk fs s.language < fs.length :=
          fun hcon => hmem ((ihA s.language).mpr hcon)
        have hgidx :
            firstLangIdx disk (fs ++ [g]) s.language = fs.length :=
          firstLangIdx_append_hit disk fs g s.language hidx0 hlg
        refine ⟨fun L => ?_, fun L hL => ?_, ?_⟩
        · rw [List.mem_append, List.mem_singleton]
          by_cases hLs : L = s.language
          · subst hLs
            exact ⟨fun _ => by rw [hgidx]; omega, fun _ => Or.inr rfl⟩
          · constructor
            · intro hc
              rcases hc with hc | hc
              · have hfsL := (ihA L).mp hc
                rw [firstLangIdx_append_lt disk fs g L hfsL]
                omega
              · exact absurd hc hLs
            · intro hlt
              left
              have hne : langOfFile disk g ≠ some L := by
                rw [hlg]
                intro hcon
                exact hLs (Option.some.inj hcon).symm
              by_cases hfs : firstLangIdx disk fs L < fs.length
              · exact (ihA L).mpr hfs
              · have hmiss := firstLangIdx_append_miss disk fs g L hfs hne
                simp only [List.length_append, List.length_singleton]
                  at hmiss
                exact absurd hlt hmiss
        · rw [List.mem_append, List.mem_singleton] at hL
          rw [valOf_updAssoc, codeTotal_append disk fs g L]
          rcases hL with hL | hL
          · have hLs : s.language ≠ L := fun he => hmem (he ▸ hL)
            rw [if_neg hLs,
              if_neg (by
                rw [hlg]
                intro hcon
                exact hLs (Option.some.inj hcon)),
              Nat.add_zero]
            exact ihB L hL
          · subst hL
            rw [if_pos rfl, if_pos hlg, hcg,
              valOf_eq_zero _ _ hmem,
              codeTotal_eq_zero disk fs s.language (by
                intro f hf hcon
                exact hidx0
                  ((firstLangIdx_lt_iff disk fs s.language).mpr
                    ⟨f, hf, hcon⟩))]
        · rw [List.pairwise_append]
          refine ⟨?_, List.pairwise_singleton _ _, ?_⟩
          · refine List.Pairwise.imp_of_mem ?_ ihC
            intro a b ha hb hab
            rw [firstLangIdx_append_lt disk fs g a ((ihA a).mp ha),
              firstLangIdx_append_lt disk fs g b ((ihA b).mp hb)]
            exact hab
          · intro a ha b hb
            rw [List.mem_singleton] at hb
            subst hb
            rw [hgidx,
              firstLangIdx_append_lt disk fs g a ((ihA a).mp ha)]
            exact (ihA a).mp ha

/-- `max` with `key` over a Python iterable: the result is the first
element attaining the maximum key. -/
theorem pyMaxAux_split :
    ∀ (rest : List (String × Nat)) (best : String) (bv : Nat),
      (pyMaxAux best bv rest = best ∧ ∀ p ∈ rest, p.2 ≤ bv) ∨
      (∃ as v bs, rest = as ++ (pyMaxAux best bv rest, v) :: bs ∧
        bv < v ∧ (∀ p ∈ as, p.2 < v) ∧ (∀ p ∈ bs, p.2 ≤ v))
  | [], best, bv =>
    Or.inl ⟨rfl, fun p hp => absurd hp (List.not_mem_nil p)⟩
  | (k, v0) :: rest, best, bv => by
    by_cases hv : v0 > bv
    · have hred : pyMaxAux best bv ((k, v0) :: rest) =
          pyMaxAux k v0 rest := by
        show (if v0 > bv then pyMaxAux k v0 rest
          else pyMaxAux best bv rest) = _
        rw [if_pos hv]
      rcases pyMaxAux_split rest k v0 with ⟨heq, hall⟩ |
        ⟨as, v, bs, hsplit, hlt, has, hbs⟩
      · right
        refine ⟨[], v0, rest, ?_, hv,
          fun p hp => absurd hp (List.not_mem_nil p), hall⟩
        rw [hred, heq, List.nil_append]
      · right
        refine ⟨(k, v0) :: as, v, bs, ?_, ?_, ?_, hbs⟩
        · rw [hred, List.cons_append]
          exact congrArg _ hsplit
        · omega
        · intro p hp
          rcases List.mem_cons.mp hp with rfl | hp1
          · show v0 < v
            omega
          · exact has p hp1
    · have hred : pyMaxAux best bv ((k, v0) :: rest) =
          pyMaxAux best bv rest := by
        show (if v0 > bv then pyMaxAux k v0 rest
          else pyMaxAux best bv rest) = _
        rw [if_neg hv]
      rcases pyMaxAux_split rest best bv with ⟨heq, hall⟩ |
        ⟨as, v, bs, hsplit, hlt, has, hbs⟩
      · left
        refine ⟨hred.trans heq, ?_⟩
        intro p hp
        rcases List.mem_cons.mp hp with rfl | hp1
        · show v0 ≤ bv
          omega
        · exact hall p hp1
      · right
        refine ⟨(k, v0) :: as, v, bs, ?_, hlt, ?_, hbs⟩
        · rw [hred, List.cons_append]
          exact congrArg _ hsplit
        · intro p hp
          rcases List.mem_cons.mp hp with rfl | hp1
          · show v0 < v
            omega
          · exact has p hp1

theorem primaryLanguage_none_iff (m : List (String × Nat)) :
    primaryLanguage m = none ↔ m = [] := by
  cases m with
  | nil => simp [primaryLanguage]
  | cons p rest => simp [primaryLanguage]

/-- The chosen primary language heads an entry whose value bounds every
value of the dict, with every earlier entry strictly below it. -/
theorem primaryLanguage_split (m : List (String × Nat)) (L : String)
    (h : primaryLanguage m = some L) :
    ∃ as v bs, m = as ++ (L, v) :: bs ∧ (∀ p ∈ as, p.2 < v) ∧
      ∀ p ∈ m, p.2 ≤ v := by
  cases m with
  | nil => cases h
  | cons p rest =>
    obtain ⟨k0, v0⟩ := p
    have hL : pyMaxAux k0 v0 rest = L :=
      Option.some.inj (show some (pyMaxAux k0 v0 rest) = some L from h)
    rcases pyMaxAux_split rest k0 v0 with ⟨heq, hall⟩ |
      ⟨as, v, bs, hsplit, hlt, has, hbs⟩
    · refine ⟨[], v0, rest, ?_,
        fun p hp => absurd hp (List.not_mem_nil p), ?_⟩
      · rw [List.nil_append, ← hL, heq]
      · intro p hp
        rcases List.mem_cons.mp hp with rfl | hp1
        · show v0 ≤ v0
          exact Nat.le_refl v0
        · exact hall p hp1
    · refine ⟨(k0, v0) :: as, v, bs, ?_, ?_, ?_⟩
      · rw [List.cons_append, ← hL]
        exact congrArg _ hsplit
      · intro p hp
        rcases List.mem_cons.mp hp with rfl | hp1
        · show v0 < v
          omega
        · exact has p hp1
      · intro p hp
        rcases List.mem_cons.mp hp with rfl | hp1
        · show v0 ≤ v
          omega
        · rw [hsplit] at hp1
          rcases List.mem_append.mp hp1 with h1 | h1
          · exact Nat.le_of_lt (has p h1)
          · rcases List.mem_cons.mp h1 with rfl | h2
            · show v ≤ v
              exact Nat.le_refl v
            · exact hbs p h2

/-- With the cache disabled, one loop iteration is the pure per-file step
on each aggregate and leaves the cache untouched. -/
theorem runLocStep_nocache (disk : List Nat → List Nat)
    (pyM : List Nat → Option PyMetrics) (st : LocState) (f : List Nat) :
    runLocStep disk false pyM st f =
      ⟨pureLangStep disk st.lang_loc f,
       tfStep pyM st.total_function_count f,
       tcStep pyM st.total_complexity_sum f, st.cache⟩ := rfl

theorem runLoc_nocache_lang (disk : List Nat → List Nat)
    (pyM : List Nat → Option PyMetrics) :
    ∀ (files : List (List Nat)) (st : LocState),
      (files.foldl (runLocStep disk false pyM) st).lang_loc =
        files.foldl (pureLangStep disk) st.lang_loc
  | [], _ => rfl
  | f :: fs, st => by
    rw [List.foldl_cons, List.foldl_cons, runLocStep_nocache]
    exact runLoc_nocache_lang disk pyM fs _

/-- C7: on an uncached run, `primary_language` is `None` exactly when no
flattened file has a recognized language; otherwise it names a recognized
language whose aggregated code-line total is maximal among recognized
languages, and on a tied total the language whose first contributing file
comes earliest in the flattened order wins. -/
theorem c7_primary_language (disk : List Nat → List Nat) (o : BuildOpts)
    (ign : List Nat → Bool) (rootAbs : List Nat) (entries : List Entry)
    (maxFiles : Nat) (pyM : List Nat → Option PyMetrics) (cache0 : Cache)
    (files : List (List Nat))
    (hfiles : files =
      flattenPaths rootAbs (buildFsTree disk o ign rootAbs entries))
    (r : RepositorySummary) (c : Cache)
    (h : runAnalysis disk o ign rootAbs entries maxFiles false pyM cache0 =
      Except.ok (r, c)) :
    (r.primary_language = none ↔ ∀ f ∈ files, langOfFile disk f = none) ∧
    ∀ L, r.primary_language = some L →
      (∃ f ∈ files, langOfFile disk f = some L) ∧
      ∀ M, (∃ f ∈ files, langOfFile disk f = some M) →
        codeTotal disk files M ≤ codeTotal disk files L ∧
        (codeTotal disk files M = codeTotal disk files L →
          firstLangIdx disk files L ≤ firstLangIdx disk files M) := by
  have hprim : r.primary_language =
      primaryLanguage (files.foldl (pureLangStep disk) []) := by
    unfold runAnalysis at h
    by_cases hlen : (flattenPaths rootAbs
        (buildFsTree disk o ign rootAbs entries)).length > maxFiles
    · rw [if_pos hlen] at h
      cases h
    · rw [if_neg hlen] at h
      have hpair := Except.ok.inj h
      have hr := congrArg Prod.fst hpair
      dsimp only at hr
      rw [← hr]
      show primaryLanguage (runLocAndMetrics disk false pyM
        (flattenPaths rootAbs (buildFsTree disk o ign rootAbs entries))
        cache0).lang_loc = _
      rw [← hfiles]
      unfold runLocAndMetrics
      rw [runLoc_nocache_lang disk pyM]
  obtain ⟨ihA, ihB, ihC⟩ := pureLangLoc_inv disk files
  have hnd : ((files.foldl (pureLangStep disk) []).map Prod.fst).Nodup :=
    List.Pairwise.imp
      (fun hab heq => absurd (heq ▸ hab) (Nat.lt_irrefl _)) ihC
  constructor
  · rw [hprim, primaryLanguage_none_iff]
    constructor
    · intro hnil f hf
      cases hlf : langOfFile disk f with
      | none => rfl
      | some L =>
        have hmem : L ∈ (files.foldl (pureLangStep disk) []).map Prod.fst :=
          (ihA L).mpr
            ((firstLangIdx_lt_iff disk files L).mpr ⟨f, hf, hlf⟩)
        rw [hnil] at hmem
        cases hmem
    · intro hall
      cases hm : files.foldl (pureLangStep disk) [] with
      | nil => rfl
      | cons p rest =>
        have hmem : p.1 ∈ (files.foldl (pureLangStep disk) []).map
            Prod.fst := by
          rw [hm]
          exact List.mem_map_of_mem _ (List.mem_cons_self _ _)
        obtain ⟨f, hf, hlf⟩ :=
          (firstLangIdx_lt_iff disk files p.1).mp ((ihA p.1).mp hmem)
        rw [hall f hf] at hlf
        cases hlf
  · intro L hL
    rw [hprim] at hL
    obtain ⟨as, v, bs, hsplit, has, hall⟩ :=
      primaryLanguage_split (files.foldl (pureLangStep disk) []) L hL
    have hLmem : L ∈ (files.foldl (pureLangStep disk) []).map Prod.fst := by
      rw [hsplit, List.map_append, List.map_cons]
      exact List.mem_append_right _ (List.mem_cons_self _ _)
    refine ⟨(firstLangIdx_lt_iff disk files L).mp ((ihA L).mp hLmem), ?_⟩
    intro M hM
    have hMmem : M ∈ (files.foldl (pureLangStep disk) []).map Prod.fst :=
      (ihA M).mpr ((firstLangIdx_lt_iff disk files M).mpr hM)
    have hLv : valOf (files.foldl (pureLangStep disk) []) L = v :=
      valOf_of_mem _ hnd L v (by
        rw [hsplit]
        exact List.mem_append_right _ (List.mem_cons_self _ _))
    have hLct : codeTotal disk files L = v := (ihB L hLmem).symm.trans hLv
    have hMentry : (M, valOf (files.foldl (pureLangStep disk) []) M) ∈
        files.foldl (pureLangStep disk) [] := mem_of_key _ M hMmem
    have hMle : valOf (files.foldl (pureLangStep disk) []) M ≤ v :=
      hall _ hMentry
    constructor
    · calc codeTotal disk files M
          = valOf (files.foldl (pureLangStep disk) []) M :=
            (ihB M hMmem).symm
        _ ≤ v := hMle
        _ = codeTotal disk files L := hLct.symm
    · intro hEq
      by_cases hML : M = L
      · rw [hML]
      · have hMv : valOf (files.foldl (pureLangStep disk) []) M = v :=
          (ihB M hMmem).trans (hEq.trans hLct)
        have hMem2 : (M, valOf (files.foldl (pureLangStep disk) []) M) ∈
            as ++ (L, v) :: bs := by
          rw [← hsplit]
          exact hMentry
        rcases List.mem_append.mp hMem2 with h1 | h1
        · have hlt : valOf (files.foldl (pureLangStep disk) []) M < v :=
            has _ h1
          rw [hMv] at hlt
          exact absurd hlt (Nat.lt_irrefl v)
        · rcases List.mem_cons.mp h1 with h2 | h2
          · have : M = L := congrArg Prod.fst h2
            exact absurd this hML
          · have hkeys : (files.foldl (pureLangStep disk) []).map Prod.fst =
                as.map Prod.fst ++ L :: bs.map Prod.fst := by
              rw [hsplit, List.map_append, List.map_cons]
            have hpw := ihC
            rw [hkeys] at hpw
            have hLb := (List.pairwise_cons.mp
              (List.pairwise_append.mp hpw).2.1).1
            exact Nat.le_of_lt
              (hLb M (List.mem_map_of_mem Prod.fst h2))

/-- A two-file repository whose languages tie at one code line each. -/
def c7Disk : List Nat → List Nat := fun p =>
  if p == strCodes "a.py" then strCodes "x = 1\n" else strCodes "var x;\n"

def c7Entries : List Entry :=
  [.file (strCodes "a.py") false, .file (strCodes "b.js") false]

def c7Files : List (List Nat) :=
  flattenPaths []
    (buildFsTree c7Disk ⟨false, [], []⟩ (fun _ => false) [] c7Entries)

def c7Summary : RepositorySummary :=
  ⟨2, [("Python", 1), ("JavaScript", 1)], 2, some "Python", 0⟩

/-- Witness for C7: Python and JavaScript tie at one code line; Python,
whose file comes first in flattened order, is the primary language. -/
theorem c7_witness :
    (runAnalysis c7Disk ⟨false, [], []⟩ (fun _ => false) [] c7Entries
        5 false (fun _ => none) [] = Except.ok (c7Summary, [])) ∧
    ((c7Summary.primary_language = none ↔
        ∀ f ∈ c7Files, langOfFile c7Disk f = none) ∧
     ∀ L, c7Summary.primary_language = some L →
        (∃ f ∈ c7Files, langOfFile c7Disk f = some L) ∧
        ∀ M, (∃ f ∈ c7Files, langOfFile c7Disk f = some M) →
          codeTotal c7Disk c7Files M ≤ codeTotal c7Disk c7Files L ∧
          (codeTotal c7Disk c7Files M = codeTotal c7Disk c7Files L →
            firstLangIdx c7Disk c7Files L ≤ firstLangIdx c7Disk c7Files M)) :=
  ⟨by rfl,
   c7_primary_language c7Disk ⟨false, [], []⟩ (fun _ => false) [] c7Entries
     5 (fun _ => none) [] c7Files rfl c7Summary [] (by rfl)⟩

end Codetag
